import Mathlib

/-!
# Verification of the heredity inference engine

A shallow embedding of `heredity.py`: exact Bayesian inference over a family
pedigree by brute-force enumeration.  Python floats are modelled by exact
rationals (`ℚ`); Python sets of person names by lists of strings (membership
is all the code ever uses); the mutable per-person accumulator dictionary by a
function `String → Dist`.  A Python `ZeroDivisionError` raised by `/=` is
modelled by `Except.error`.
-/

namespace Heredity

/-! ## Definitions: the embedded program -/

/-- One row of the pedigree: `people[name]` in the Python code.
`mother`/`father` are `none` when the CSV field is blank, `trait` is `none`
when the trait is unobserved. -/
structure Person where
  name : String
  mother : Option String
  father : Option String
  trait : Option Bool
deriving DecidableEq, Repr

/-- `PROBS["gene"]` : unconditional gene-count prior.
Keys other than 0,1,2 never occur (they would be a `KeyError` in Python);
they are mapped to 0. -/
def PROBS_gene : ℕ → ℚ
  | 2 => 1/100
  | 1 => 3/100
  | 0 => 96/100
  | _ => 0

/-- `PROBS["trait"]` : probability of the trait given the gene count. -/
def PROBS_trait : ℕ → Bool → ℚ
  | 2, true => 65/100
  | 2, false => 35/100
  | 1, true => 56/100
  | 1, false => 44/100
  | 0, true => 1/100
  | 0, false => 99/100
  | _, _ => 0

/-- `PROBS["mutation"]`. -/
def PROBS_mutation : ℚ := 1/100

/-- Python `x in s` where `x` is an optional name and `s` a set of names:
`None in s` is `False` for a set of strings. -/
def memOpt (x : Option String) (s : List String) : Bool :=
  match x with
  | none => false
  | some m => m ∈ s

/-- `num_genes = 2 if person in two_genes else 1 if person in one_gene else 0`. -/
def num_genes (one_gene two_genes : List String) (nm : String) : ℕ :=
  if nm ∈ two_genes then 2 else if nm ∈ one_gene then 1 else 0

/-- `prob_passing_mother` / `prob_passing_father`: a parent passes the gene
with probability `1 - mutation` if the parent is in `two_genes`, `0.5` if in
`one_gene`, and `mutation` otherwise (also when the parent field is blank:
`None in s` is `False` in Python). -/
def prob_passing (one_gene two_genes : List String) (parent : Option String) : ℚ :=
  if memOpt parent two_genes then 1 - PROBS_mutation
  else if memOpt parent one_gene then 1/2
  else PROBS_mutation

/-- The gene-configuration factor of one person: the unconditional prior for
a person with both parent fields blank, otherwise the two-parent transmission
formula of `joint_probability` (`pm * pf` for two copies, the mixed term for
one copy, `(1-pm) * (1-pf)` for zero copies). -/
def gene_factor (one_gene two_genes : List String) (person : Person) : ℚ :=
  if person.mother = none ∧ person.father = none then
    PROBS_gene (num_genes one_gene two_genes person.name)
  else if num_genes one_gene two_genes person.name = 2 then
    prob_passing one_gene two_genes person.mother *
      prob_passing one_gene two_genes person.father
  else if num_genes one_gene two_genes person.name = 1 then
    prob_passing one_gene two_genes person.mother *
        (1 - prob_passing one_gene two_genes person.father) +
      (1 - prob_passing one_gene two_genes person.mother) *
        prob_passing one_gene two_genes person.father
  else
    (1 - prob_passing one_gene two_genes person.mother) *
      (1 - prob_passing one_gene two_genes person.father)

/-- `joint_probability(people, one_gene, two_genes, have_trait)`:
the running product over the people list, exactly as the Python loop builds
it (`probability *= gene factor` then `*= trait factor`). -/
def joint_probability (people : List Person)
    (one_gene two_genes have_trait : List String) : ℚ :=
  people.foldl
    (fun probability person =>
      probability * gene_factor one_gene two_genes person *
        PROBS_trait (num_genes one_gene two_genes person.name)
          (decide (person.name ∈ have_trait)))
    1

/-- `powerset(s)`: all subsets of `s`, materialized as a list.  The Python
code chains `itertools.combinations` by increasing size; `List.sublists'`
produces the same collection of subsets (each exactly once for a
duplicate-free input) in a different order, which no caller depends on (the
enumeration result is an order-independent sum). -/
def powerset (s : List α) : List (List α) :=
  s.sublists'

/-- The evidence check in `main`: some person's observed trait value differs
from their membership in `have_trait`. -/
def fails_evidence (people : List Person) (have_trait : List String) : Bool :=
  people.any fun person =>
    match person.trait with
    | none => false
    | some b => b != decide (person.name ∈ have_trait)

/-- `set(people)` — the dict keys, i.e. the name column. -/
def names_of (people : List Person) : List String :=
  people.map Person.name

/-- The combination stream of the nested loops in `main`: every
evidence-consistent `have_trait` subset (inconsistent ones are `continue`d
over), and for each, every `one_gene` subset of the names and every
`two_genes` subset of `names - one_gene`. -/
def combos (people : List Person) :
    List (List String × List String × List String) :=
  (powerset (names_of people)).flatMap fun have_trait =>
    if fails_evidence people have_trait then []
    else
      (powerset (names_of people)).flatMap fun one_gene =>
        (powerset ((names_of people).filter (fun nm => nm ∉ one_gene))).map
          fun two_genes => (have_trait, one_gene, two_genes)

/-- Per-person accumulator: the `"gene"` and `"trait"` dictionaries.
Only keys 0,1,2 resp. `true`,`false` are ever touched. -/
structure Dist where
  gene : ℕ → ℚ
  trait : Bool → ℚ

/-- The zero-initialized accumulator built at the top of `main`. -/
def initProbs : String → Dist :=
  fun _ => { gene := fun _ => 0, trait := fun _ => 0 }

/-- `update(probabilities, one_gene, two_genes, have_trait, p)`: add `p` to
every person's gene bucket for their assigned count and trait bucket for
their assigned boolean.  (The Python loop touches exactly the dict keys; the
functional map updates every name uniformly, which agrees on all keys that
exist.) -/
def update (probabilities : String → Dist)
    (one_gene two_genes have_trait : List String) (p : ℚ) : String → Dist :=
  fun nm =>
    { gene := fun k =>
        if k = num_genes one_gene two_genes nm then (probabilities nm).gene k + p
        else (probabilities nm).gene k
      trait := fun b =>
        if b = decide (nm ∈ have_trait) then (probabilities nm).trait b + p
        else (probabilities nm).trait b }

/-- The enumeration/accumulation phase of `main`: fold `update` over every
surviving combination, scoring each with `joint_probability`. -/
def run_enumeration (people : List Person) : String → Dist :=
  (combos people).foldl
    (fun probabilities c =>
      update probabilities c.2.1 c.2.2 c.1
        (joint_probability people c.2.1 c.2.2 c.1))
    initProbs

/-- Normalizing one person's two distributions.  The Python code sums the
dict values (`gene` keys 2,1,0; `trait` keys `True`,`False`) and divides each
bucket by its distribution's sum; a zero sum makes the division raise
`ZeroDivisionError`, modelled as `Except.error`. -/
def normalize_dist (d : Dist) : Except String Dist :=
  let total_gene := d.gene 2 + d.gene 1 + d.gene 0
  if total_gene = 0 then Except.error "ZeroDivisionError: division by zero"
  else
    let total_trait := d.trait true + d.trait false
    if total_trait = 0 then Except.error "ZeroDivisionError: division by zero"
    else
      Except.ok
        { gene := fun k => d.gene k / total_gene
          trait := fun b => d.trait b / total_trait }

/-- `normalize(probabilities)`: normalize every person in turn; an exception
raised for one person aborts the whole loop. -/
def normalize (people : List Person) (probabilities : String → Dist) :
    Except String (String → Dist) :=
  people.foldl
    (fun st person =>
      match st with
      | Except.error e => Except.error e
      | Except.ok acc =>
        match normalize_dist (acc person.name) with
        | Except.error e => Except.error e
        | Except.ok d => Except.ok fun nm => if nm = person.name then d else acc nm)
    (Except.ok probabilities)

/-- The whole inference core of `main` (everything between loading and
printing): enumerate, accumulate, normalize. -/
def solve (people : List Person) : Except String (String → Dist) :=
  normalize people (run_enumeration people)

/-- Observable projection of the pipeline result: person `nm`'s gene bucket
`k`, or `none` when the run raised. -/
def solveGene (people : List Person) (nm : String) (k : ℕ) : Option ℚ :=
  match solve people with
  | Except.error _ => none
  | Except.ok f => some ((f nm).gene k)

/-- Observable projection of the pipeline result: person `nm`'s trait bucket
`b`, or `none` when the run raised. -/
def solveTrait (people : List Person) (nm : String) (b : Bool) : Option ℚ :=
  match solve people with
  | Except.error _ => none
  | Except.ok f => some ((f nm).trait b)

/-- The spec's per-parent pass probability: `1 − μ` for a parent in
`two_genes`, `0.5` for a parent in `one_gene`, `μ = 0.01` otherwise
(this covers an absent parent as well). -/
def claim_pass (one_gene two_genes : List String) (parent : Option String) : ℚ :=
  if memOpt parent two_genes then 99/100
  else if memOpt parent one_gene then 1/2
  else 1/100

/-- The spec's unconditional gene prior `0.96 / 0.03 / 0.01`. -/
def claim_prior : ℕ → ℚ
  | 0 => 96/100
  | 1 => 3/100
  | 2 => 1/100
  | _ => 0

/-- The spec's conditional trait table
`P(true|0)=0.01, P(true|1)=0.56, P(true|2)=0.65`. -/
def claim_trait_table : ℕ → Bool → ℚ
  | 0, true => 1/100
  | 0, false => 99/100
  | 1, true => 56/100
  | 1, false => 44/100
  | 2, true => 65/100
  | 2, false => 35/100
  | _, _ => 0

/-- The spec's gene-count factor for one person: the unconditional prior for
a person with no recorded parents, otherwise the transmission mixture of the
two parents' pass probabilities. -/
def claim_gene_factor (one_gene two_genes : List String) (p : Person) : ℚ :=
  if p.mother = none ∧ p.father = none then
    claim_prior (num_genes one_gene two_genes p.name)
  else if num_genes one_gene two_genes p.name = 2 then
    claim_pass one_gene two_genes p.mother * claim_pass one_gene two_genes p.father
  else if num_genes one_gene two_genes p.name = 1 then
    claim_pass one_gene two_genes p.mother *
        (1 - claim_pass one_gene two_genes p.father) +
      (1 - claim_pass one_gene two_genes p.mother) *
        claim_pass one_gene two_genes p.father
  else
    (1 - claim_pass one_gene two_genes p.mother) *
      (1 - claim_pass one_gene two_genes p.father)

/-- The spec's trait factor for one person: `P(trait=t | gene=g)` where `t`
says whether the person is in `have_trait`. -/
def claim_trait_factor (one_gene two_genes have_trait : List String)
    (p : Person) : ℚ :=
  claim_trait_table (num_genes one_gene two_genes p.name)
    (decide (p.name ∈ have_trait))

/-- Swap the recorded mother and father of the person called `nm`. -/
def swap_one (nm : String) (p : Person) : Person :=
  if p.name = nm then { p with mother := p.father, father := p.mother } else p

/-- The pedigree with the parents of the person called `nm` swapped. -/
def swap_parents (nm : String) (people : List Person) : List Person :=
  people.map (swap_one nm)

/-- The total unnormalized probability mass accumulated over a combination
list. -/
def mass (people : List Person)
    (cs : List (List String × List String × List String)) : ℚ :=
  (cs.map (fun c => joint_probability people c.2.1 c.2.2 c.1)).sum

/-- The value `normalize_dist` produces on success: every bucket divided by
its own distribution's sum. -/
def norm_pure (d : Dist) : Dist :=
  { gene := fun k => d.gene k / (d.gene 2 + d.gene 1 + d.gene 0)
    trait := fun b => d.trait b / (d.trait true + d.trait false) }

/-- One always-consistent `have_trait` subset: the people observed with the
trait. -/
def consHT (people : List Person) : List String :=
  (people.filter fun p => decide (p.trait = some true)).map Person.name

/-- The subsets a combination denotes (the Python sets are materialized as
lists; their underlying sets are the `toFinset`s). -/
def comboFinsets (c : List String × List String × List String) :
    Finset String × Finset String × Finset String :=
  (c.1.toFinset, c.2.1.toFinset, c.2.2.toFinset)

/-- Point update of an assignment. -/
def updA (g : String → ℕ) (a : String) (v : ℕ) : String → ℕ :=
  fun x => if x = a then v else g x

/-- The pass probability as a function of the parent's gene count
(`1-μ` / `0.5` / `μ`), matching the three-way membership test of
`prob_passing`. -/
def passProb : ℕ → ℚ
  | 2 => 1 - PROBS_mutation
  | 1 => 1/2
  | _ => PROBS_mutation

/-- The gene count an assignment gives to an optional parent: a blank parent
field behaves exactly like a 0-copy parent. -/
def parentVal (g : String → ℕ) : Option String → ℕ
  | none => 0
  | some m => g m

/-- `gene_factor` re-read over an assignment function. -/
def geneFactorA (p : Person) (g : String → ℕ) : ℚ :=
  if p.mother = none ∧ p.father = none then PROBS_gene (g p.name)
  else if g p.name = 2 then
    passProb (parentVal g p.mother) * passProb (parentVal g p.father)
  else if g p.name = 1 then
    passProb (parentVal g p.mother) * (1 - passProb (parentVal g p.father)) +
      (1 - passProb (parentVal g p.mother)) * passProb (parentVal g p.father)
  else
    (1 - passProb (parentVal g p.mother)) * (1 - passProb (parentVal g p.father))

/-- The assignment denoted by a disjoint subset pair over a base
assignment. -/
def asgOf (one_gene two_genes : List String) (g : String → ℕ) : String → ℕ :=
  fun x => if x ∈ two_genes then 2 else if x ∈ one_gene then 1 else g x

/-- Sum of `G` over all `{0,1,2}`-updates of the names in `l`. -/
def sumAssign (l : List String) (G : (String → ℕ) → ℚ) (g : String → ℕ) : ℚ :=
  match l with
  | [] => G g
  | a :: l =>
    sumAssign l G g + sumAssign l G (updA g a 2) + sumAssign l G (updA g a 1)

/-- The inner double subset sum of the enumeration, over a base
assignment. -/
def pairSum (l : List String) (G : (String → ℕ) → ℚ) (g : String → ℕ) : ℚ :=
  ((powerset l).map (fun og =>
    ((powerset (l.filter (fun nm => nm ∉ og))).map (fun tg =>
      G (asgOf og tg g))).sum)).sum

/-- Earlier-listed persons never name a later person as a parent (a
topological listing of the pedigree: parents are recorded before their
children, hence no cycles). -/
def NoLaterParent (a b : Person) : Prop :=
  a.mother ≠ some b.name ∧ a.father ≠ some b.name

instance (a b : Person) : Decidable (NoLaterParent a b) := by
  unfold NoLaterParent
  infer_instance

/-! ## Theorems -/

theorem PROBS_gene_eq_claim_prior (n : ℕ) : PROBS_gene n = claim_prior n := by
  rcases n with _ | _ | _ | k <;> rfl

theorem PROBS_trait_eq_claim_table (n : ℕ) (b : Bool) :
    PROBS_trait n b = claim_trait_table n b := by
  rcases n with _ | _ | _ | k <;> rcases b <;> rfl

theorem prob_passing_eq_claim_pass (one_gene two_genes : List String)
    (parent : Option String) :
    prob_passing one_gene two_genes parent = claim_pass one_gene two_genes parent := by
  unfold prob_passing claim_pass PROBS_mutation
  split_ifs <;> norm_num

theorem gene_factor_eq_claim (one_gene two_genes : List String) (p : Person) :
    gene_factor one_gene two_genes p = claim_gene_factor one_gene two_genes p := by
  unfold gene_factor claim_gene_factor
  rw [prob_passing_eq_claim_pass, prob_passing_eq_claim_pass,
    PROBS_gene_eq_claim_prior]

theorem foldl_mul_factor (people : List Person) (f : Person → ℚ)
    (h : Person → ℚ) (a : ℚ) :
    people.foldl (fun q p => q * f p * h p) a =
      a * (people.map (fun p => f p * h p)).prod := by
  induction people generalizing a with
  | nil => simp
  | cons p rest ih =>
    rw [List.foldl_cons, ih, List.map_cons, List.prod_cons]
    ring

theorem joint_probability_eq_prod (people : List Person)
    (one_gene two_genes have_trait : List String) :
    joint_probability people one_gene two_genes have_trait =
      (people.map (fun p =>
        claim_gene_factor one_gene two_genes p *
          claim_trait_factor one_gene two_genes have_trait p)).prod := by
  rw [joint_probability, foldl_mul_factor, one_mul]
  have hfun : (fun p => gene_factor one_gene two_genes p *
      PROBS_trait (num_genes one_gene two_genes p.name)
        (decide (p.name ∈ have_trait))) =
      fun p => claim_gene_factor one_gene two_genes p *
        claim_trait_factor one_gene two_genes have_trait p := by
    funext p
    rw [gene_factor_eq_claim, claim_trait_factor, PROBS_trait_eq_claim_table]
  rw [hfun]

/-- Source-side product form: the loop's running product equals the product
of the per-person contributions. -/
theorem joint_probability_eq_prod_source (people : List Person)
    (one_gene two_genes have_trait : List String) :
    joint_probability people one_gene two_genes have_trait =
      (people.map (fun p =>
        gene_factor one_gene two_genes p *
          PROBS_trait (num_genes one_gene two_genes p.name)
            (decide (p.name ∈ have_trait)))).prod := by
  rw [joint_probability, foldl_mul_factor, one_mul]

theorem num_genes_cases (one_gene two_genes : List String) (nm : String) :
    num_genes one_gene two_genes nm = 0 ∨ num_genes one_gene two_genes nm = 1 ∨
      num_genes one_gene two_genes nm = 2 := by
  unfold num_genes; split_ifs <;> simp

theorem PROBS_gene_pos (one_gene two_genes : List String) (nm : String) :
    0 < PROBS_gene (num_genes one_gene two_genes nm) := by
  rcases num_genes_cases one_gene two_genes nm with h | h | h <;>
    rw [h] <;> norm_num [PROBS_gene]

theorem PROBS_trait_pos (one_gene two_genes : List String) (nm : String) (b : Bool) :
    0 < PROBS_trait (num_genes one_gene two_genes nm) b := by
  rcases num_genes_cases one_gene two_genes nm with h | h | h <;>
    rw [h] <;> rcases b <;> norm_num [PROBS_trait]

theorem prob_passing_mem_Ioo (one_gene two_genes : List String)
    (parent : Option String) :
    0 < prob_passing one_gene two_genes parent ∧
      prob_passing one_gene two_genes parent < 1 := by
  unfold prob_passing PROBS_mutation
  split_ifs <;> norm_num

theorem gene_factor_pos (one_gene two_genes : List String) (p : Person) :
    0 < gene_factor one_gene two_genes p := by
  unfold gene_factor
  obtain ⟨hm0, hm1⟩ := prob_passing_mem_Ioo one_gene two_genes p.mother
  obtain ⟨hf0, hf1⟩ := prob_passing_mem_Ioo one_gene two_genes p.father
  split_ifs
  · exact PROBS_gene_pos one_gene two_genes p.name
  · exact mul_pos hm0 hf0
  · have h1 : 0 < prob_passing one_gene two_genes p.mother *
        (1 - prob_passing one_gene two_genes p.father) :=
      mul_pos hm0 (by linarith)
    have h2 : 0 ≤ (1 - prob_passing one_gene two_genes p.mother) *
        prob_passing one_gene two_genes p.father :=
      le_of_lt (mul_pos (by linarith) hf0)
    linarith
  · exact mul_pos (by linarith) (by linarith)

theorem joint_probability_pos (people : List Person)
    (one_gene two_genes have_trait : List String) :
    0 < joint_probability people one_gene two_genes have_trait := by
  rw [joint_probability_eq_prod_source]
  apply List.prod_pos
  intro a ha
  obtain ⟨p, _, rfl⟩ := List.mem_map.mp ha
  exact mul_pos (gene_factor_pos one_gene two_genes p)
    (PROBS_trait_pos one_gene two_genes p.name _)

/-- C1: `joint_probability` is the product, over all persons, of the spec's
gene-count factor (unconditional prior `0.96/0.03/0.01` for a person with no
recorded parents, otherwise the two-parent transmission mixture built from
pass probabilities `1-μ` / `0.5` / `μ` with `μ = 0.01`) and the spec's trait
factor `P(trait | gene)` from the table `0.01 / 0.56 / 0.65`, with the gene
count read as 2 in `two_genes`, 1 in `one_gene`, else 0, and the trait read
as membership in `have_trait`. -/
theorem claim_C1_joint_probability_factorization (people : List Person)
    (one_gene two_genes have_trait : List String)
    (hdisj : ∀ nm, nm ∈ one_gene → nm ∉ two_genes) :
    joint_probability people one_gene two_genes have_trait =
      (people.map (fun p =>
        claim_gene_factor one_gene two_genes p *
          claim_trait_factor one_gene two_genes have_trait p)).prod :=
  joint_probability_eq_prod people one_gene two_genes have_trait

theorem claim_C1_witness :
    (∀ nm, nm ∈ ["Mom"] → nm ∉ ["Kid"]) ∧
      joint_probability
        [{ name := "Mom", mother := none, father := none, trait := some true },
         { name := "Kid", mother := some "Mom", father := some "Dad", trait := none }]
        ["Mom"] ["Kid"] ["Kid"] =
      ([{ name := "Mom", mother := none, father := none, trait := some true },
        { name := "Kid", mother := some "Mom", father := some "Dad", trait := none }].map
          (fun p => claim_gene_factor ["Mom"] ["Kid"] p *
            claim_trait_factor ["Mom"] ["Kid"] ["Kid"] p)).prod :=
  ⟨by decide,
    claim_C1_joint_probability_factorization _ _ _ _ (by decide)⟩

theorem swap_one_name (nm : String) (p : Person) : (swap_one nm p).name = p.name := by
  unfold swap_one; split <;> rfl

theorem swap_one_trait (nm : String) (p : Person) :
    (swap_one nm p).trait = p.trait := by
  unfold swap_one; split <;> rfl

theorem gene_factor_swap_one (one_gene two_genes : List String) (nm : String)
    (p : Person) :
    gene_factor one_gene two_genes (swap_one nm p) =
      gene_factor one_gene two_genes p := by
  unfold swap_one
  split
  · show gene_factor _ _ { p with mother := p.father, father := p.mother } = _
    unfold gene_factor
    dsimp only
    by_cases h : p.mother = none ∧ p.father = none
    · rw [if_pos (⟨h.2, h.1⟩ : p.father = none ∧ p.mother = none), if_pos h]
    · rw [if_neg (fun hc => h ⟨hc.2, hc.1⟩), if_neg h]
      split_ifs <;> ring
  · rfl

theorem names_of_swap (nm : String) (people : List Person) :
    names_of (swap_parents nm people) = names_of people := by
  unfold names_of swap_parents
  rw [List.map_map]
  apply List.map_congr_left
  intro p _
  exact swap_one_name nm p

theorem list_any_congr {α : Type} {l : List α} {p q : α → Bool}
    (h : ∀ x ∈ l, p x = q x) : l.any p = l.any q := by
  induction l with
  | nil => rfl
  | cons x xs ih =>
    simp only [List.any_cons]
    rw [h x (List.mem_cons_self x xs),
      ih fun y hy => h y (List.mem_cons_of_mem x hy)]

theorem fails_evidence_swap (nm : String) (people : List Person)
    (have_trait : List String) :
    fails_evidence (swap_parents nm people) have_trait =
      fails_evidence people have_trait := by
  unfold fails_evidence swap_parents
  rw [List.any_map]
  apply list_any_congr
  intro p _
  simp only [Function.comp_apply, swap_one_trait, swap_one_name]

theorem joint_probability_swap (nm : String) (people : List Person)
    (one_gene two_genes have_trait : List String) :
    joint_probability (swap_parents nm people) one_gene two_genes have_trait =
      joint_probability people one_gene two_genes have_trait := by
  rw [joint_probability_eq_prod_source, joint_probability_eq_prod_source,
    swap_parents, List.map_map]
  congr 1
  apply List.map_congr_left
  intro p _
  simp only [Function.comp_apply, gene_factor_swap_one, swap_one_name]

theorem combos_swap (nm : String) (people : List Person) :
    combos (swap_parents nm people) = combos people := by
  unfold combos
  rw [names_of_swap]
  apply List.flatMap_congr
  intro have_trait _
  rw [fails_evidence_swap]

theorem run_enumeration_swap (nm : String) (people : List Person) :
    run_enumeration (swap_parents nm people) = run_enumeration people := by
  unfold run_enumeration
  rw [combos_swap]
  congr 1
  funext probabilities c
  rw [joint_probability_swap]

theorem normalize_swap (nm : String) (people : List Person)
    (probabilities : String → Dist) :
    normalize (swap_parents nm people) probabilities =
      normalize people probabilities := by
  unfold normalize swap_parents
  rw [List.foldl_map]
  congr 1
  funext st p
  rw [swap_one_name]

/-- C7: swapping the recorded mother and father of any person leaves
`joint_probability` unchanged on every assignment (the transmission formula
is symmetric in the two parents), and consequently the whole pipeline output
— in particular every gene-count marginal — is unchanged. -/
theorem claim_C7_parent_swap_symmetry (people : List Person) (nm : String) :
    (∀ one_gene two_genes have_trait,
      joint_probability (swap_parents nm people) one_gene two_genes have_trait =
        joint_probability people one_gene two_genes have_trait) ∧
    solve (swap_parents nm people) = solve people := by
  refine ⟨fun og tg ht => joint_probability_swap nm people og tg ht, ?_⟩
  unfold solve
  rw [run_enumeration_swap, normalize_swap]

theorem foldl_update_gene (people : List Person)
    (cs : List (List String × List String × List String))
    (probs : String → Dist) (nm : String) (k : ℕ) :
    ((cs.foldl
      (fun probabilities c =>
        update probabilities c.2.1 c.2.2 c.1
          (joint_probability people c.2.1 c.2.2 c.1)) probs) nm).gene k =
      (probs nm).gene k +
        (cs.map (fun c =>
          if k = num_genes c.2.1 c.2.2 nm then
            joint_probability people c.2.1 c.2.2 c.1
          else 0)).sum := by
  induction cs generalizing probs with
  | nil => simp
  | cons c cs ih =>
    rw [List.foldl_cons, ih, List.map_cons, List.sum_cons]
    unfold update
    dsimp only
    split_ifs <;> ring

theorem foldl_update_trait (people : List Person)
    (cs : List (List String × List String × List String))
    (probs : String → Dist) (nm : String) (b : Bool) :
    ((cs.foldl
      (fun probabilities c =>
        update probabilities c.2.1 c.2.2 c.1
          (joint_probability people c.2.1 c.2.2 c.1)) probs) nm).trait b =
      (probs nm).trait b +
        (cs.map (fun c =>
          if b = decide (nm ∈ c.1) then
            joint_probability people c.2.1 c.2.2 c.1
          else 0)).sum := by
  induction cs generalizing probs with
  | nil => simp
  | cons c cs ih =>
    rw [List.foldl_cons, ih, List.map_cons, List.sum_cons]
    unfold update
    dsimp only
    split_ifs <;> ring

theorem list_sum_map_add {α : Type} (l : List α) (f g : α → ℚ) :
    (l.map f).sum + (l.map g).sum = (l.map (fun x => f x + g x)).sum := by
  induction l with
  | nil => simp
  | cons x xs ih =>
    simp only [List.map_cons, List.sum_cons]
    rw [← ih]; ring

theorem foldl_gene_sum (people : List Person)
    (cs : List (List String × List String × List String)) (nm : String) :
    (((cs.foldl
      (fun probabilities c =>
        update probabilities c.2.1 c.2.2 c.1
          (joint_probability people c.2.1 c.2.2 c.1)) initProbs) nm).gene 0 +
      ((cs.foldl
      (fun probabilities c =>
        update probabilities c.2.1 c.2.2 c.1
          (joint_probability people c.2.1 c.2.2 c.1)) initProbs) nm).gene 1 +
      ((cs.foldl
      (fun probabilities c =>
        update probabilities c.2.1 c.2.2 c.1
          (joint_probability people c.2.1 c.2.2 c.1)) initProbs) nm).gene 2) =
      mass people cs := by
  rw [foldl_update_gene, foldl_update_gene, foldl_update_gene]
  show 0 + _ + (0 + _) + (0 + _) = _
  rw [zero_add, zero_add, zero_add, list_sum_map_add, list_sum_map_add, mass]
  apply congrArg List.sum
  apply List.map_congr_left
  intro c _
  rcases num_genes_cases c.2.1 c.2.2 nm with h | h | h <;> rw [h] <;> norm_num

theorem foldl_trait_sum (people : List Person)
    (cs : List (List String × List String × List String)) (nm : String) :
    (((cs.foldl
      (fun probabilities c =>
        update probabilities c.2.1 c.2.2 c.1
          (joint_probability people c.2.1 c.2.2 c.1)) initProbs) nm).trait true +
      ((cs.foldl
      (fun probabilities c =>
        update probabilities c.2.1 c.2.2 c.1
          (joint_probability people c.2.1 c.2.2 c.1)) initProbs) nm).trait false) =
      mass people cs := by
  rw [foldl_update_trait, foldl_update_trait]
  show 0 + _ + (0 + _) = _
  rw [zero_add, zero_add, list_sum_map_add, mass]
  apply congrArg List.sum
  apply List.map_congr_left
  intro c _
  rcases hb : decide (nm ∈ c.1) <;> simp

/-- C9: at every point of the accumulation (after any prefix of the
combination stream, in particular after all of it), each person's three gene
buckets and two trait buckets have the same sum, and that common total is the
same for every person: `update` adds each joint probability to exactly one
gene bucket and one trait bucket of every person, and all buckets start at
zero. -/
theorem claim_C9_bucket_sums_invariant (people : List Person) (n : ℕ)
    (nm nm' : String) :
    ((((combos people).take n).foldl
      (fun probabilities c =>
        update probabilities c.2.1 c.2.2 c.1
          (joint_probability people c.2.1 c.2.2 c.1)) initProbs) nm).gene 0 +
      ((((combos people).take n).foldl
      (fun probabilities c =>
        update probabilities c.2.1 c.2.2 c.1
          (joint_probability people c.2.1 c.2.2 c.1)) initProbs) nm).gene 1 +
      ((((combos people).take n).foldl
      (fun probabilities c =>
        update probabilities c.2.1 c.2.2 c.1
          (joint_probability people c.2.1 c.2.2 c.1)) initProbs) nm).gene 2 =
      ((((combos people).take n).foldl
      (fun probabilities c =>
        update probabilities c.2.1 c.2.2 c.1
          (joint_probability people c.2.1 c.2.2 c.1)) initProbs) nm).trait true +
      ((((combos people).take n).foldl
      (fun probabilities c =>
        update probabilities c.2.1 c.2.2 c.1
          (joint_probability people c.2.1 c.2.2 c.1)) initProbs) nm).trait false ∧
    ((((combos people).take n).foldl
      (fun probabilities c =>
        update probabilities c.2.1 c.2.2 c.1
          (joint_probability people c.2.1 c.2.2 c.1)) initProbs) nm).gene 0 +
      ((((combos people).take n).foldl
      (fun probabilities c =>
        update probabilities c.2.1 c.2.2 c.1
          (joint_probability people c.2.1 c.2.2 c.1)) initProbs) nm).gene 1 +
      ((((combos people).take n).foldl
      (fun probabilities c =>
        update probabilities c.2.1 c.2.2 c.1
          (joint_probability people c.2.1 c.2.2 c.1)) initProbs) nm).gene 2 =
      ((((combos people).take n).foldl
      (fun probabilities c =>
        update probabilities c.2.1 c.2.2 c.1
          (joint_probability people c.2.1 c.2.2 c.1)) initProbs) nm').gene 0 +
      ((((combos people).take n).foldl
      (fun probabilities c =>
        update probabilities c.2.1 c.2.2 c.1
          (joint_probability people c.2.1 c.2.2 c.1)) initProbs) nm').gene 1 +
      ((((combos people).take n).foldl
      (fun probabilities c =>
        update probabilities c.2.1 c.2.2 c.1
          (joint_probability people c.2.1 c.2.2 c.1)) initProbs) nm').gene 2 := by
  constructor
  · rw [foldl_gene_sum, foldl_trait_sum]
  · rw [foldl_gene_sum, foldl_gene_sum]

theorem normalize_dist_ok (d : Dist)
    (hg : d.gene 2 + d.gene 1 + d.gene 0 ≠ 0)
    (ht : d.trait true + d.trait false ≠ 0) :
    normalize_dist d = Except.ok (norm_pure d) := by
  unfold normalize_dist norm_pure
  rw [if_neg hg, if_neg ht]

/-- C4: when both of a person's bucket sums are strictly positive,
`normalize` succeeds on that person and divides every gene bucket by the
gene sum and every trait bucket by the trait sum (so relative proportions
are preserved), and afterwards each distribution sums to exactly 1. -/
theorem claim_C4_normalization (d : Dist)
    (hg : 0 < d.gene 2 + d.gene 1 + d.gene 0)
    (ht : 0 < d.trait true + d.trait false) :
    ∃ d', normalize_dist d = Except.ok d' ∧
      (∀ k, d'.gene k = d.gene k / (d.gene 2 + d.gene 1 + d.gene 0)) ∧
      (∀ b, d'.trait b = d.trait b / (d.trait true + d.trait false)) ∧
      d'.gene 0 + d'.gene 1 + d'.gene 2 = 1 ∧
      d'.trait true + d'.trait false = 1 := by
  refine ⟨norm_pure d, normalize_dist_ok d (ne_of_gt hg) (ne_of_gt ht),
    fun k => rfl, fun b => rfl, ?_, ?_⟩
  · show d.gene 0 / _ + d.gene 1 / _ + d.gene 2 / _ = 1
    rw [div_add_div_same, div_add_div_same, div_eq_one_iff_eq (ne_of_gt hg)]
    ring
  · show d.trait true / _ + d.trait false / _ = 1
    rw [div_add_div_same, div_eq_one_iff_eq (ne_of_gt ht)]

theorem claim_C4_witness :
    (0 < ({ gene := fun _ => 1, trait := fun _ => 1 } : Dist).gene 2 +
        ({ gene := fun _ => 1, trait := fun _ => 1 } : Dist).gene 1 +
        ({ gene := fun _ => 1, trait := fun _ => 1 } : Dist).gene 0) ∧
    (0 < ({ gene := fun _ => 1, trait := fun _ => 1 } : Dist).trait true +
        ({ gene := fun _ => 1, trait := fun _ => 1 } : Dist).trait false) ∧
    ∃ d', normalize_dist { gene := fun _ => 1, trait := fun _ => 1 } =
        Except.ok d' ∧
      (∀ k, d'.gene k =
        ({ gene := fun _ => 1, trait := fun _ => 1 } : Dist).gene k /
          (({ gene := fun _ => 1, trait := fun _ => 1 } : Dist).gene 2 +
            ({ gene := fun _ => 1, trait := fun _ => 1 } : Dist).gene 1 +
            ({ gene := fun _ => 1, trait := fun _ => 1 } : Dist).gene 0)) ∧
      (∀ b, d'.trait b =
        ({ gene := fun _ => 1, trait := fun _ => 1 } : Dist).trait b /
          (({ gene := fun _ => 1, trait := fun _ => 1 } : Dist).trait true +
            ({ gene := fun _ => 1, trait := fun _ => 1 } : Dist).trait false)) ∧
      d'.gene 0 + d'.gene 1 + d'.gene 2 = 1 ∧
      d'.trait true + d'.trait false = 1 :=
  ⟨by norm_num, by norm_num,
    claim_C4_normalization { gene := fun _ => 1, trait := fun _ => 1 }
      (by norm_num) (by norm_num)⟩

/-- C3: the code performs no zero-sum check: handed an all-zero accumulator
(what unsatisfiable evidence would produce), `normalize` fails at the
division itself — Python's `ZeroDivisionError` — instead of detecting the
zero sum beforehand and signalling a domain-specific error such as
"no assignment consistent with evidence". -/
theorem claim_C3_zero_sum_division (p : Person) :
    normalize [p] initProbs =
      Except.error "ZeroDivisionError: division by zero" := by
  unfold normalize
  rw [List.foldl_cons]
  dsimp only
  have hz : normalize_dist (initProbs p.name) =
      Except.error "ZeroDivisionError: division by zero" := by
    unfold normalize_dist initProbs
    norm_num
  rw [hz]
  rfl

/-- Success path of `normalize`: when every person's two bucket sums are
nonzero the loop completes, the entry of every person is its normalized
distribution, and names outside the pedigree are untouched. -/
theorem normalize_ok (people : List Person) (probs : String → Dist)
    (hn : (names_of people).Nodup)
    (h : ∀ p ∈ people,
      (probs p.name).gene 2 + (probs p.name).gene 1 + (probs p.name).gene 0 ≠ 0 ∧
      (probs p.name).trait true + (probs p.name).trait false ≠ 0) :
    ∃ f, normalize people probs = Except.ok f ∧
      (∀ nm, nm ∉ names_of people → f nm = probs nm) ∧
      (∀ p ∈ people, f p.name = norm_pure (probs p.name)) := by
  induction people generalizing probs with
  | nil =>
    exact ⟨probs, rfl, fun nm _ => rfl, fun p hp => absurd hp (List.not_mem_nil p)⟩
  | cons q rest ih =>
    have hn' : (names_of rest).Nodup := (List.nodup_cons.mp hn).2
    have hqn : q.name ∉ names_of rest := (List.nodup_cons.mp hn).1
    obtain ⟨hq1, hq2⟩ := h q (List.mem_cons_self q rest)
    have hdist : normalize_dist (probs q.name) =
        Except.ok (norm_pure (probs q.name)) := normalize_dist_ok _ hq1 hq2
    have hstep : normalize (q :: rest) probs =
        normalize rest
          (fun nm => if nm = q.name then norm_pure (probs q.name) else probs nm) := by
      unfold normalize
      rw [List.foldl_cons]
      dsimp only
      rw [hdist]
    have hrest : ∀ p ∈ rest,
        ((fun nm => if nm = q.name then norm_pure (probs q.name) else probs nm)
            p.name).gene 2 +
          ((fun nm => if nm = q.name then norm_pure (probs q.name) else probs nm)
            p.name).gene 1 +
          ((fun nm => if nm = q.name then norm_pure (probs q.name) else probs nm)
            p.name).gene 0 ≠ 0 ∧
        ((fun nm => if nm = q.name then norm_pure (probs q.name) else probs nm)
            p.name).trait true +
          ((fun nm => if nm = q.name then norm_pure (probs q.name) else probs nm)
            p.name).trait false ≠ 0 := by
      intro p hp
      have hne : p.name ≠ q.name := by
        intro hcontra
        exact hqn (hcontra ▸ List.mem_map_of_mem Person.name hp)
      simp only [if_neg hne]
      exact h p (List.mem_cons_of_mem q hp)
    obtain ⟨f, hf, hout, hmem⟩ :=
      ih (fun nm => if nm = q.name then norm_pure (probs q.name) else probs nm)
        hn' hrest
    refine ⟨f, by rw [hstep, hf], ?_, ?_⟩
    · intro nm hnm
      have hnm1 : nm ≠ q.name := fun hc => hnm (hc ▸ List.mem_cons_self _ _)
      have hnm2 : nm ∉ names_of rest := fun hc =>
        hnm (List.mem_cons_of_mem _ hc)
      rw [hout nm hnm2]
      simp only [if_neg hnm1]
    · intro p hp
      rcases List.mem_cons.mp hp with rfl | hp'
      · rw [hout p.name hqn]
        simp
      · have hne : p.name ≠ q.name := by
          intro hcontra
          exact hqn (hcontra ▸ List.mem_map_of_mem Person.name hp')
        rw [hmem p hp']
        simp only [if_neg hne]

theorem person_name_inj (people : List Person) (hn : (names_of people).Nodup)
    {p p' : Person} (hp : p ∈ people) (hp' : p' ∈ people)
    (h : p.name = p'.name) : p = p' :=
  List.inj_on_of_nodup_map hn hp hp' h

theorem consHT_sublist (people : List Person) :
    List.Sublist (consHT people) (names_of people) :=
  (List.filter_sublist people).map Person.name

theorem fails_evidence_consHT (people : List Person)
    (hn : (names_of people).Nodup) :
    fails_evidence people (consHT people) = false := by
  unfold fails_evidence
  rw [List.any_eq_false]
  intro p hp
  rcases hpt : p.trait with _ | b
  · simp [hpt]
  · rcases b with _ | _
    · -- observed false: p.name must not be in consHT
      have hnotmem : p.name ∉ consHT people := by
        intro hmem
        obtain ⟨p', hp', hname⟩ := List.mem_map.mp hmem
        obtain ⟨hp'people, hp'trait⟩ := List.mem_filter.mp hp'
        have : p' = p := person_name_inj people hn hp'people hp hname
        rw [this, hpt] at hp'trait
        exact absurd (of_decide_eq_true hp'trait) (by simp)
      simp [hpt, hnotmem]
    · -- observed true: p.name is in consHT
      have hmem : p.name ∈ consHT people :=
        List.mem_map_of_mem Person.name
          (List.mem_filter.mpr ⟨hp, by rw [hpt]; rfl⟩)
      simp [hpt, hmem]

theorem consistent_combo_mem (people : List Person)
    (hn : (names_of people).Nodup) :
    (consHT people, ([] : List String), ([] : List String)) ∈ combos people := by
  unfold combos
  rw [List.mem_flatMap]
  refine ⟨consHT people, ?_, ?_⟩
  · exact List.mem_sublists'.mpr (consHT_sublist people)
  · have hff : ¬(fails_evidence people (consHT people) = true) := by
      rw [fails_evidence_consHT people hn]; simp
    rw [if_neg hff, List.mem_flatMap]
    refine ⟨[], List.mem_sublists'.mpr (List.nil_sublist _), ?_⟩
    exact List.mem_map_of_mem _ (List.mem_sublists'.mpr (List.nil_sublist _))

theorem mass_combos_pos (people : List Person)
    (hn : (names_of people).Nodup) :
    0 < mass people (combos people) := by
  have hmem : joint_probability people [] [] (consHT people) ∈
      (combos people).map
        (fun c => joint_probability people c.2.1 c.2.2 c.1) :=
    List.mem_map_of_mem _ (consistent_combo_mem people hn)
  have hle := List.single_le_sum
    (fun x hx => by
      obtain ⟨c, _, rfl⟩ := List.mem_map.mp hx
      exact le_of_lt (joint_probability_pos people c.2.1 c.2.2 c.1))
    _ hmem
  exact lt_of_lt_of_le (joint_probability_pos people [] [] (consHT people)) hle

theorem run_gene_sum (people : List Person) (nm : String) :
    ((run_enumeration people) nm).gene 0 + ((run_enumeration people) nm).gene 1 +
      ((run_enumeration people) nm).gene 2 = mass people (combos people) := by
  unfold run_enumeration
  exact foldl_gene_sum people (combos people) nm

theorem run_trait_sum (people : List Person) (nm : String) :
    ((run_enumeration people) nm).trait true +
      ((run_enumeration people) nm).trait false =
      mass people (combos people) := by
  unfold run_enumeration
  exact foldl_trait_sum people (combos people) nm

theorem combos_not_fails (people : List Person)
    (c : List String × List String × List String) (hc : c ∈ combos people) :
    fails_evidence people c.1 = false := by
  unfold combos at hc
  rw [List.mem_flatMap] at hc
  obtain ⟨ht, _, hc⟩ := hc
  by_cases hf : fails_evidence people ht = true
  · rw [if_pos hf] at hc
    exact absurd hc (List.not_mem_nil c)
  · rw [if_neg hf] at hc
    rw [List.mem_flatMap] at hc
    obtain ⟨og, _, hc⟩ := hc
    obtain ⟨tg, _, rfl⟩ := List.mem_map.mp hc
    rcases hb : fails_evidence people ht with _ | _
    · rfl
    · exact absurd hb hf

theorem mem_ht_of_observed_true (people : List Person) (ht : List String)
    (q : Person) (hq : q ∈ people) (hqt : q.trait = some true)
    (hfe : fails_evidence people ht = false) : q.name ∈ ht := by
  unfold fails_evidence at hfe
  rw [List.any_eq_false] at hfe
  have h := hfe q hq
  rw [hqt] at h
  rcases hd : decide (q.name ∈ ht) with _ | _
  · rw [hd] at h
    exact absurd rfl h
  · exact of_decide_eq_true hd

theorem run_trait_false_zero (people : List Person) (q : Person)
    (hq : q ∈ people) (hqt : q.trait = some true) :
    ((run_enumeration people) q.name).trait false = 0 := by
  unfold run_enumeration
  rw [foldl_update_trait]
  have hsum : ((combos people).map (fun c =>
      if false = decide (q.name ∈ c.1) then
        joint_probability people c.2.1 c.2.2 c.1
      else 0)).sum = 0 := by
    apply List.sum_eq_zero
    intro x hx
    obtain ⟨c, hc, rfl⟩ := List.mem_map.mp hx
    have hmem : q.name ∈ c.1 :=
      mem_ht_of_observed_true people c.1 q hq hqt (combos_not_fails people c hc)
    rw [if_neg (by simp [hmem])]
  rw [hsum]
  show (initProbs q.name).trait false + 0 = 0
  simp [initProbs]

theorem run_trait_true_eq_mass (people : List Person) (q : Person)
    (hq : q ∈ people) (hqt : q.trait = some true) :
    ((run_enumeration people) q.name).trait true =
      mass people (combos people) := by
  have h := run_trait_sum people q.name
  rw [run_trait_false_zero people q hq hqt, add_zero] at h
  exact h

/-- C6: if a person's trait is observed `true`, then after the whole pipeline
that person's trait posterior is exactly `P(trait=true) = 1` and
`P(trait=false) = 0`, whatever the rest of the pedigree and evidence are. -/
theorem claim_C6_observed_true_posterior (people : List Person)
    (hn : (names_of people).Nodup) (q : Person) (hq : q ∈ people)
    (hqt : q.trait = some true) :
    solveTrait people q.name true = some 1 ∧
      solveTrait people q.name false = some 0 := by
  have hmass := mass_combos_pos people hn
  have hg : ∀ p ∈ people,
      ((run_enumeration people) p.name).gene 2 +
        ((run_enumeration people) p.name).gene 1 +
        ((run_enumeration people) p.name).gene 0 ≠ 0 ∧
      ((run_enumeration people) p.name).trait true +
        ((run_enumeration people) p.name).trait false ≠ 0 := by
    intro p _
    constructor
    · have h1 := run_gene_sum people p.name
      intro h0
      rw [show ((run_enumeration people) p.name).gene 0 +
          ((run_enumeration people) p.name).gene 1 +
          ((run_enumeration people) p.name).gene 2 =
          ((run_enumeration people) p.name).gene 2 +
          ((run_enumeration people) p.name).gene 1 +
          ((run_enumeration people) p.name).gene 0 from by ring, h0] at h1
      exact absurd h1.symm (ne_of_gt hmass)
    · rw [run_trait_sum]
      exact ne_of_gt hmass
  obtain ⟨f, hfok, _, hmem⟩ := normalize_ok people (run_enumeration people) hn hg
  have hfq := hmem q hq
  have htrue := run_trait_true_eq_mass people q hq hqt
  have hfalse := run_trait_false_zero people q hq hqt
  unfold solveTrait solve
  rw [hfok]
  dsimp only
  constructor
  · rw [hfq]
    show some (((run_enumeration people) q.name).trait true /
      (((run_enumeration people) q.name).trait true +
        ((run_enumeration people) q.name).trait false)) = some 1
    rw [htrue, hfalse, add_zero, div_self (ne_of_gt hmass)]
  · rw [hfq]
    show some (((run_enumeration people) q.name).trait false /
      (((run_enumeration people) q.name).trait true +
        ((run_enumeration people) q.name).trait false)) = some 0
    rw [hfalse, zero_div]

theorem claim_C6_witness :
    (names_of
      [{ name := "T", mother := none, father := none, trait := some true },
       { name := "U", mother := none, father := none, trait := none }]).Nodup ∧
    ({ name := "T", mother := none, father := none, trait := some true } : Person) ∈
      [{ name := "T", mother := none, father := none, trait := some true },
       { name := "U", mother := none, father := none, trait := none }] ∧
    (({ name := "T", mother := none, father := none, trait := some true } : Person)).trait
      = some true ∧
    (solveTrait
      [{ name := "T", mother := none, father := none, trait := some true },
       { name := "U", mother := none, father := none, trait := none }] "T" true =
      some 1 ∧
    solveTrait
      [{ name := "T", mother := none, father := none, trait := some true },
       { name := "U", mother := none, father := none, trait := none }] "T" false =
      some 0) :=
  ⟨by decide, by decide, by decide,
    claim_C6_observed_true_posterior
      [{ name := "T", mother := none, father := none, trait := some true },
       { name := "U", mother := none, father := none, trait := none }]
      (by decide)
      { name := "T", mother := none, father := none, trait := some true }
      (by decide) (by decide)⟩

/-- C10: a person with exactly one recorded parent is evaluated through the
non-founder branch: the absent parent contributes pass probability
`μ = PROBS_mutation = 0.01`, exactly as a recorded parent carrying 0 gene
copies would, rather than the unconditional prior being used or an error
being raised.  First conjunct: the closed form of the person's contribution
(the transmission mixture with one pass probability pinned to `μ`).  Second
conjunct: the joint probability is unchanged when the absent parent is
replaced by an explicit parent name `d` that carries 0 copies. -/
theorem claim_C10_single_recorded_parent (p : Person) (fn : String)
    (l1 l2 : List Person) (d : String)
    (one_gene two_genes have_trait : List String)
    (hp : (p.mother = none ∧ p.father = some fn) ∨
      (p.mother = some fn ∧ p.father = none))
    (hd1 : d ∉ one_gene) (hd2 : d ∉ two_genes) :
    joint_probability [p] one_gene two_genes have_trait =
      (if num_genes one_gene two_genes p.name = 2 then
          PROBS_mutation * prob_passing one_gene two_genes (some fn)
        else if num_genes one_gene two_genes p.name = 1 then
          PROBS_mutation * (1 - prob_passing one_gene two_genes (some fn)) +
            (1 - PROBS_mutation) * prob_passing one_gene two_genes (some fn)
        else
          (1 - PROBS_mutation) *
            (1 - prob_passing one_gene two_genes (some fn))) *
        PROBS_trait (num_genes one_gene two_genes p.name)
          (decide (p.name ∈ have_trait)) ∧
    joint_probability (l1 ++ p :: l2) one_gene two_genes have_trait =
      joint_probability
        (l1 ++
          { name := p.name,
            mother := some (match p.mother with | some m => m | none => d),
            father := some (match p.father with | some m => m | none => d),
            trait := p.trait } :: l2)
        one_gene two_genes have_trait := by
  have hpassd : prob_passing one_gene two_genes (some d) = PROBS_mutation := by
    unfold prob_passing memOpt
    rw [if_neg (by simpa using hd2), if_neg (by simpa using hd1)]
  have hpassnone : prob_passing one_gene two_genes none = PROBS_mutation := rfl
  have hfactor : gene_factor one_gene two_genes p =
      gene_factor one_gene two_genes
        { name := p.name,
          mother := some (match p.mother with | some m => m | none => d),
          father := some (match p.father with | some m => m | none => d),
          trait := p.trait } := by
    rcases hp with ⟨hm, hf⟩ | ⟨hm, hf⟩
    · unfold gene_factor
      rw [hm, hf]
      dsimp only
      have hL : ¬((none : Option String) = none ∧ (some fn : Option String) = none) :=
        fun h => Option.noConfusion h.2
      have hR : ¬((some d : Option String) = none ∧ (some fn : Option String) = none) :=
        fun h => Option.noConfusion h.1
      rw [if_neg hL, if_neg hR, hpassd, hpassnone]
    · unfold gene_factor
      rw [hm, hf]
      dsimp only
      have hL : ¬((some fn : Option String) = none ∧ (none : Option String) = none) :=
        fun h => Option.noConfusion h.1
      have hR : ¬((some fn : Option String) = none ∧ (some d : Option String) = none) :=
        fun h => Option.noConfusion h.1
      rw [if_neg hL, if_neg hR, hpassd, hpassnone]
  constructor
  · rw [joint_probability_eq_prod_source, List.map_singleton, List.prod_singleton]
    rcases hp with ⟨hm, hf⟩ | ⟨hm, hf⟩
    · unfold gene_factor
      rw [hm, hf]
      have hL : ¬((none : Option String) = none ∧ (some fn : Option String) = none) :=
        fun h => Option.noConfusion h.2
      rw [if_neg hL, hpassnone]
    · unfold gene_factor
      rw [hm, hf]
      have hL : ¬((some fn : Option String) = none ∧ (none : Option String) = none) :=
        fun h => Option.noConfusion h.1
      rw [if_neg hL, hpassnone]
      split_ifs <;> ring
  · rw [joint_probability_eq_prod_source, joint_probability_eq_prod_source,
      List.map_append, List.map_append, List.map_cons, List.map_cons]
    rw [List.prod_append, List.prod_append, List.prod_cons, List.prod_cons]
    rw [hfactor]

theorem claim_C10_witness :
    ((({ name := "Kid", mother := none, father := some "Dad", trait := none } : Person).mother = none ∧ ({ name := "Kid", mother := none, father := some "Dad", trait := none } : Person).father = some "Dad") ∨
      (({ name := "Kid", mother := none, father := some "Dad", trait := none } : Person).mother = some "Dad" ∧ ({ name := "Kid", mother := none, father := some "Dad", trait := none } : Person).father = none)) ∧
    ("X" ∉ ["Dad"]) ∧ ("X" ∉ ([] : List String)) ∧
    (joint_probability [{ name := "Kid", mother := none, father := some "Dad", trait := none }] ["Dad"] [] [] =
      (if num_genes ["Dad"] [] ({ name := "Kid", mother := none, father := some "Dad", trait := none } : Person).name = 2 then
          PROBS_mutation * prob_passing ["Dad"] [] (some "Dad")
        else if num_genes ["Dad"] [] ({ name := "Kid", mother := none, father := some "Dad", trait := none } : Person).name = 1 then
          PROBS_mutation * (1 - prob_passing ["Dad"] [] (some "Dad")) +
            (1 - PROBS_mutation) * prob_passing ["Dad"] [] (some "Dad")
        else
          (1 - PROBS_mutation) * (1 - prob_passing ["Dad"] [] (some "Dad"))) *
        PROBS_trait (num_genes ["Dad"] [] ({ name := "Kid", mother := none, father := some "Dad", trait := none } : Person).name)
          (decide (({ name := "Kid", mother := none, father := some "Dad", trait := none } : Person).name ∈ ([] : List String))) ∧
    joint_probability ([] ++ { name := "Kid", mother := none, father := some "Dad", trait := none } :: []) ["Dad"] [] [] =
      joint_probability
        ([] ++ { name := ({ name := "Kid", mother := none, father := some "Dad", trait := none } : Person).name, mother := some (match ({ name := "Kid", mother := none, father := some "Dad", trait := none } : Person).mother with | some m => m | none => "X"), father := some (match ({ name := "Kid", mother := none, father := some "Dad", trait := none } : Person).father with | some m => m | none => "X"), trait := ({ name := "Kid", mother := none, father := some "Dad", trait := none } : Person).trait } :: [])
        ["Dad"] [] []) :=
  ⟨Or.inl ⟨rfl, rfl⟩, by decide, by decide,
    claim_C10_single_recorded_parent
      { name := "Kid", mother := none, father := some "Dad", trait := none }
      "Dad" [] [] "X" ["Dad"] [] [] (Or.inl ⟨rfl, rfl⟩)
      (by decide) (by decide)⟩

/-- On the two-dangling-parent pedigree the pipeline completes and returns
`P(gene=0) = 0.9801 = (1-μ)²`. -/
theorem dangling_pipeline_value :
    solveGene
      [{ name := "Kid", mother := some "GhostM", father := some "GhostF", trait := none }] "Kid" 0 = some (9801/10000) := by
  have h1 : (("GhostF" : String) = "Kid") = False := by simp
  have h2 : (("GhostM" : String) = "Kid") = False := by simp
  have h3 : (some "GhostM" = (none : Option String)) = False := by simp
  have h4 : (some "GhostF" = (none : Option String)) = False := by simp
  norm_num [solveGene, solve, Heredity.normalize, run_enumeration, combos,
    powerset, names_of, fails_evidence, update, initProbs, normalize_dist,
    joint_probability, gene_factor, num_genes, prob_passing, memOpt,
    PROBS_gene, PROBS_trait, PROBS_mutation, List.sublists'_cons,
    List.sublists'_nil, norm_pure, h1, h2, h3, h4]

/-- Refutation of C8 as stated: a pedigree whose only person records two
parent names that exist nowhere in the pedigree is processed without any
error — the pipeline completes and returns an ordinary distribution (the
projection yields `some` a value, never the error case), so no fatal
configuration error is ever reported to the caller. -/
theorem claim_C8_counterexample :
    solveGene
      [{ name := "Kid", mother := some "GhostM", father := some "GhostF", trait := none }] "Kid" 0 = some (9801/10000) :=
  dangling_pipeline_value

/-- C8 amended: the core does not fail fast on a dangling parent reference.
A parent name that is not a member of `one_gene` or `two_genes` — which is
the case for every name absent from the pedigree, since the enumerated
subsets are drawn from the pedigree's names — silently contributes the pass
probability `μ` of a 0-copy parent, and the pipeline completes normally. -/
theorem claim_C8_dangling_parent_silent (one_gene two_genes : List String)
    (d : String) (hd1 : d ∉ one_gene) (hd2 : d ∉ two_genes) :
    prob_passing one_gene two_genes (some d) = PROBS_mutation ∧
    solveGene
      [{ name := "Kid", mother := some "GhostM", father := some "GhostF", trait := none }] "Kid" 0 = some (9801/10000) := by
  constructor
  · unfold prob_passing memOpt
    rw [if_neg (by simpa using hd2), if_neg (by simpa using hd1)]
  · exact dangling_pipeline_value

theorem claim_C8_dangling_parent_silent_witness :
    ("GhostM" ∉ ["Kid"]) ∧ ("GhostM" ∉ ([] : List String)) ∧
    (prob_passing ["Kid"] [] (some "GhostM") = PROBS_mutation ∧
    solveGene
      [{ name := "Kid", mother := some "GhostM", father := some "GhostF", trait := none }] "Kid" 0 = some (9801/10000)) :=
  ⟨by decide, by decide,
    claim_C8_dangling_parent_silent ["Kid"] [] "GhostM" (by decide) (by decide)⟩

theorem mem_powerset {α : Type} {x s : List α} :
    x ∈ powerset s ↔ List.Sublist x s :=
  List.mem_sublists'

theorem powerset_nodup {α : Type} {s : List α} (h : s.Nodup) :
    (powerset s).Nodup :=
  List.nodup_sublists'.mpr h

/-- A sublist of a duplicate-free list is recovered by filtering the list
with membership in the sublist. -/
theorem sublist_eq_filter {a s : List String} (h : List.Sublist a s)
    (hs : s.Nodup) : a = s.filter (fun x => decide (x ∈ a)) := by
  induction h with
  | slnil => rfl
  | cons y h ih =>
    rename_i l₁ l₂
    have hy : y ∉ l₁ := fun hc =>
      (List.nodup_cons.mp hs).1 (h.subset hc)
    rw [List.filter_cons_of_neg (by simpa using hy)]
    exact ih (List.nodup_cons.mp hs).2
  | cons₂ y h ih =>
    rename_i l₁ l₂
    rw [List.filter_cons_of_pos (by simp)]
    congr 1
    rw [List.filter_congr (fun x hx => ?_)]
    · exact ih (List.nodup_cons.mp hs).2
    · have hxy : x ≠ y := fun hc =>
        (List.nodup_cons.mp hs).1 (hc ▸ hx)
      simp [hxy]

/-- `toFinset` is injective on sublists of a duplicate-free list. -/
theorem sublist_toFinset_inj {a b s : List String} (ha : List.Sublist a s)
    (hb : List.Sublist b s) (hs : s.Nodup)
    (h : a.toFinset = b.toFinset) : a = b := by
  rw [sublist_eq_filter ha hs, sublist_eq_filter hb hs]
  apply List.filter_congr
  intro x _
  have : x ∈ a ↔ x ∈ b := by
    constructor
    · intro hx
      exact List.mem_toFinset.mp (h ▸ List.mem_toFinset.mpr hx)
    · intro hx
      exact List.mem_toFinset.mp (h.symm ▸ List.mem_toFinset.mpr hx)
  simp [this]

/-- Every subset of the name set is realized by exactly the filtered name
list. -/
theorem filter_mem_toFinset {s : List String} {S : Finset String}
    (hS : S ⊆ s.toFinset) :
    (s.filter (fun x => decide (x ∈ S))).toFinset = S := by
  ext x
  simp only [List.mem_toFinset, List.mem_filter, decide_eq_true_eq]
  constructor
  · exact fun h => h.2
  · intro h
    exact ⟨List.mem_toFinset.mp (hS h), h⟩

theorem combos_mem_iff (people : List Person)
    (c : List String × List String × List String) :
    c ∈ combos people ↔
      (c.1 ∈ powerset (names_of people) ∧
       fails_evidence people c.1 = false ∧
       c.2.1 ∈ powerset (names_of people) ∧
       c.2.2 ∈ powerset ((names_of people).filter (fun nm => nm ∉ c.2.1))) := by
  constructor
  · intro hc
    unfold combos at hc
    rw [List.mem_flatMap] at hc
    obtain ⟨ht, hht, hc⟩ := hc
    by_cases hf : fails_evidence people ht = true
    · rw [if_pos hf] at hc
      exact absurd hc (List.not_mem_nil c)
    · rw [if_neg hf] at hc
      rw [List.mem_flatMap] at hc
      obtain ⟨og, hog, hc⟩ := hc
      obtain ⟨tg, htg, rfl⟩ := List.mem_map.mp hc
      refine ⟨hht, ?_, hog, htg⟩
      rcases hb : fails_evidence people ht with _ | _
      · rfl
      · exact absurd hb hf
  · rintro ⟨h1, h2, h3, h4⟩
    unfold combos
    rw [List.mem_flatMap]
    refine ⟨c.1, h1, ?_⟩
    rw [if_neg (by rw [h2]; simp)]
    rw [List.mem_flatMap]
    refine ⟨c.2.1, h3, ?_⟩
    rw [List.mem_map]
    exact ⟨c.2.2, h4, rfl⟩

theorem combos_nodup (people : List Person)
    (hn : (names_of people).Nodup) : (combos people).Nodup := by
  unfold combos
  rw [List.nodup_flatMap]
  constructor
  · intro ht _
    by_cases hf : fails_evidence people ht = true
    · rw [if_pos hf]
      exact List.nodup_nil
    · rw [if_neg hf]
      rw [List.nodup_flatMap]
      constructor
      · intro og _
        apply List.Nodup.map
        · intro tg tg' h
          simpa using h
        · exact powerset_nodup (hn.filter _)
      · apply List.Pairwise.imp ?_ (powerset_nodup hn)
        intro og og' hne x hx hy
        obtain ⟨tg, _, rfl⟩ := List.mem_map.mp hx
        obtain ⟨tg', _, heq⟩ := List.mem_map.mp hy
        have : og' = og := congrArg (fun z => z.2.1) heq
        exact hne this.symm
  · apply List.Pairwise.imp ?_ (powerset_nodup hn)
    intro ht ht' hne x hx hy
    have hfirst : ∀ ht₀ : List String, ∀ y : List String × List String × List String,
        y ∈ (if fails_evidence people ht₀ then [] else
          (powerset (names_of people)).flatMap fun og =>
            (powerset ((names_of people).filter (fun nm => nm ∉ og))).map
              fun tg => (ht₀, og, tg)) → y.1 = ht₀ := by
      intro ht₀ y hy₀
      by_cases hf : fails_evidence people ht₀ = true
      · rw [if_pos hf] at hy₀
        exact absurd hy₀ (List.not_mem_nil y)
      · rw [if_neg hf] at hy₀
        rw [List.mem_flatMap] at hy₀
        obtain ⟨og, _, hy₀⟩ := hy₀
        obtain ⟨tg, _, rfl⟩ := List.mem_map.mp hy₀
        rfl
    exact hne ((hfirst ht x hx).symm.trans (hfirst ht' x hy))

theorem tg_sublist_names {people : List Person}
    {c : List String × List String × List String} (hc : c ∈ combos people) :
    List.Sublist c.1 (names_of people) ∧
      List.Sublist c.2.1 (names_of people) ∧
      List.Sublist c.2.2 (names_of people) := by
  obtain ⟨h1, _, h3, h4⟩ := (combos_mem_iff people c).mp hc
  exact ⟨mem_powerset.mp h1, mem_powerset.mp h3,
    (mem_powerset.mp h4).trans (List.filter_sublist _)⟩

theorem comboFinsets_inj_on (people : List Person)
    (hn : (names_of people).Nodup)
    {c c' : List String × List String × List String}
    (hc : c ∈ combos people) (hc' : c' ∈ combos people)
    (h : comboFinsets c = comboFinsets c') : c = c' := by
  obtain ⟨s1, s2, s3⟩ := tg_sublist_names hc
  obtain ⟨s1', s2', s3'⟩ := tg_sublist_names hc'
  unfold comboFinsets at h
  have e1 : c.1 = c'.1 :=
    sublist_toFinset_inj s1 s1' hn (congrArg (fun z => z.1) h)
  have e2 : c.2.1 = c'.2.1 :=
    sublist_toFinset_inj s2 s2' hn (congrArg (fun z => z.2.1) h)
  have e3 : c.2.2 = c'.2.2 :=
    sublist_toFinset_inj s3 s3' hn (congrArg (fun z => z.2.2) h)
  exact Prod.ext e1 (Prod.ext e2 e3)

theorem fails_evidence_eq_false_iff (people : List Person) (ht : List String) :
    fails_evidence people ht = false ↔
      ∀ p ∈ people, ∀ b, p.trait = some b → (p.name ∈ ht ↔ b = true) := by
  unfold fails_evidence
  rw [List.any_eq_false]
  constructor
  · intro h p hp b hb
    have hpb := h p hp
    rw [hb] at hpb
    rcases b with _ | _
    · rcases hd : decide (p.name ∈ ht) with _ | _
      · simp [of_decide_eq_false hd]
      · rw [hd] at hpb
        exact absurd rfl hpb
    · rcases hd : decide (p.name ∈ ht) with _ | _
      · rw [hd] at hpb
        exact absurd rfl hpb
      · simp [of_decide_eq_true hd]
  · intro h p hp
    rcases hb : p.trait with _ | b
    · simp
    · have hiff := h p hp b hb
      rcases b with _ | _
      · have : p.name ∉ ht := fun hc => by simpa using hiff.mp hc
        simp [this]
      · have : p.name ∈ ht := hiff.mpr rfl
        simp [this]

/-- C2: the driver's combination stream, viewed as the sets it denotes, is
duplicate-free and contains exactly the triples `(have_trait, one_gene,
two_genes)` where `have_trait` agrees with every observed trait value (a
violating subset contributes nothing) and `one_gene`, `two_genes` are
arbitrary disjoint subsets of the person set; the accumulation phase is
literally one `update`-with-`joint_probability` fold over this stream, so
every surviving combination is scored and accumulated exactly once. -/
theorem claim_C2_enumeration_exact (people : List Person)
    (hn : (names_of people).Nodup) :
    run_enumeration people =
      (combos people).foldl
        (fun probabilities c =>
          update probabilities c.2.1 c.2.2 c.1
            (joint_probability people c.2.1 c.2.2 c.1)) initProbs ∧
    ((combos people).map comboFinsets).Nodup ∧
    ∀ T A B : Finset String,
      (T, A, B) ∈ (combos people).map comboFinsets ↔
        (T ⊆ (names_of people).toFinset ∧
         (∀ p ∈ people, ∀ b, p.trait = some b → (p.name ∈ T ↔ b = true)) ∧
         A ⊆ (names_of people).toFinset ∧
         B ⊆ (names_of people).toFinset ∧
         Disjoint A B) := by
  refine ⟨rfl, ?_, ?_⟩
  · exact (combos_nodup people hn).map_on
      (fun c hc c' hc' h => comboFinsets_inj_on people hn hc hc' h)
  · intro T A B
    constructor
    · intro hmem
      obtain ⟨c, hc, hfin⟩ := List.mem_map.mp hmem
      obtain ⟨s1, s2, s3⟩ := tg_sublist_names hc
      obtain ⟨_, hfail, _, h4⟩ := (combos_mem_iff people c).mp hc
      have hT : T = c.1.toFinset := (congrArg (fun z => z.1) hfin).symm
      have hA : A = c.2.1.toFinset := (congrArg (fun z => z.2.1) hfin).symm
      have hB : B = c.2.2.toFinset := (congrArg (fun z => z.2.2) hfin).symm
      subst hT hA hB
      refine ⟨?_, ?_, ?_, ?_, ?_⟩
      · intro x hx
        exact List.mem_toFinset.mpr (s1.subset (List.mem_toFinset.mp hx))
      · intro p hp b hb
        have := (fails_evidence_eq_false_iff people c.1).mp hfail p hp b hb
        simpa [List.mem_toFinset] using this
      · intro x hx
        exact List.mem_toFinset.mpr (s2.subset (List.mem_toFinset.mp hx))
      · intro x hx
        exact List.mem_toFinset.mpr (s3.subset (List.mem_toFinset.mp hx))
      · rw [Finset.disjoint_right]
        intro x hx
        have hxtg : x ∈ c.2.2 := List.mem_toFinset.mp hx
        have hxfil := (mem_powerset.mp h4).subset hxtg
        have hxnog : x ∉ c.2.1 := by
          have := List.mem_filter.mp hxfil
          simpa using this.2
        simpa [List.mem_toFinset] using hxnog
    · rintro ⟨hT, hcons, hA, hB, hAB⟩
      rw [List.mem_map]
      refine ⟨((names_of people).filter (fun x => decide (x ∈ T)),
        (names_of people).filter (fun x => decide (x ∈ A)),
        ((names_of people).filter
          (fun nm => nm ∉ (names_of people).filter (fun x => decide (x ∈ A)))).filter
          (fun x => decide (x ∈ B))), ?_, ?_⟩
      · rw [combos_mem_iff]
        refine ⟨mem_powerset.mpr (List.filter_sublist _),
          ?_, mem_powerset.mpr (List.filter_sublist _),
          mem_powerset.mpr (List.filter_sublist _)⟩
        rw [fails_evidence_eq_false_iff]
        intro p hp b hb
        have hpn : p.name ∈ names_of people := List.mem_map_of_mem Person.name hp
        have := hcons p hp b hb
        constructor
        · intro hmem
          exact this.mp (by simpa using (List.mem_filter.mp hmem).2)
        · intro hb'
          exact List.mem_filter.mpr ⟨hpn, by simpa using this.mpr hb'⟩
      · unfold comboFinsets
        dsimp only
        have e1 := filter_mem_toFinset (s := names_of people) hT
        have e2 := filter_mem_toFinset (s := names_of people) hA
        have e3 : (((names_of people).filter
            (fun nm => nm ∉ (names_of people).filter
              (fun x => decide (x ∈ A)))).filter
            (fun x => decide (x ∈ B))).toFinset = B := by
          ext x
          simp only [List.mem_toFinset, List.mem_filter, decide_eq_true_eq]
          constructor
          · intro h
            exact h.2
          · intro h
            have hxn : x ∈ names_of people := List.mem_toFinset.mp (hB h)
            have hxA : x ∉ A := Finset.disjoint_right.mp hAB h
            refine ⟨⟨hxn, ?_⟩, h⟩
            intro hc
            exact hxA hc.2
        rw [e1, e2, e3]

theorem claim_C2_witness :
    (names_of
      [{ name := "T", mother := none, father := none, trait := some false },
       { name := "U", mother := none, father := none, trait := none }]).Nodup ∧
    (((combos
      [{ name := "T", mother := none, father := none, trait := some false },
       { name := "U", mother := none, father := none, trait := none }]).map
        comboFinsets).Nodup ∧
      (({"U"} : Finset String), ({"T"} : Finset String), ({"U"} : Finset String)) ∈
        (combos
          [{ name := "T", mother := none, father := none, trait := some false },
           { name := "U", mother := none, father := none, trait := none }]).map
          comboFinsets) :=
  ⟨by decide,
    (claim_C2_enumeration_exact
      [{ name := "T", mother := none, father := none, trait := some false },
       { name := "U", mother := none, father := none, trait := none }]
      (by decide)).2.1,
    ((claim_C2_enumeration_exact
      [{ name := "T", mother := none, father := none, trait := some false },
       { name := "U", mother := none, father := none, trait := none }]
      (by decide)).2.2 {"U"} {"T"} {"U"}).mpr
        ⟨by decide, by decide, by decide, by decide, by decide⟩⟩

theorem prob_passing_eq_passProb (one_gene two_genes : List String)
    (parent : Option String) :
    prob_passing one_gene two_genes parent =
      passProb (parentVal (asgOf one_gene two_genes (fun _ => 0)) parent) := by
  rcases parent with _ | m
  · rfl
  · unfold prob_passing parentVal asgOf memOpt passProb
    split_ifs <;> simp_all

theorem gene_factor_eq_A (one_gene two_genes : List String) (p : Person) :
    gene_factor one_gene two_genes p =
      geneFactorA p (asgOf one_gene two_genes (fun _ => 0)) := by
  have hnum : num_genes one_gene two_genes p.name =
      asgOf one_gene two_genes (fun _ => 0) p.name := rfl
  unfold gene_factor geneFactorA
  rw [← hnum, ← prob_passing_eq_passProb, ← prob_passing_eq_passProb]

theorem num_genes_eq_asgOf (one_gene two_genes : List String) (nm : String) :
    num_genes one_gene two_genes nm = asgOf one_gene two_genes (fun _ => 0) nm :=
  rfl

theorem sumAssign_ext (l : List String) (G H : (String → ℕ) → ℚ)
    (g : String → ℕ)
    (h : ∀ g', (∀ x, x ∉ l → g' x = g x) → G g' = H g') :
    sumAssign l G g = sumAssign l H g := by
  induction l generalizing g with
  | nil => exact h g (fun x _ => rfl)
  | cons a l ih =>
    show sumAssign l G g + sumAssign l G (updA g a 2) + sumAssign l G (updA g a 1) = _
    have step : ∀ v : ℕ, sumAssign l G (updA g a v) = sumAssign l H (updA g a v) := by
      intro v
      apply ih
      intro g' hg'
      apply h
      intro x hx
      have hxa : x ≠ a := fun hc => hx (hc ▸ List.mem_cons_self a l)
      have hxl : x ∉ l := fun hc => hx (List.mem_cons_of_mem a hc)
      rw [hg' x hxl]
      unfold updA
      rw [if_neg hxa]
    have base : sumAssign l G g = sumAssign l H g := by
      apply ih
      intro g' hg'
      apply h
      intro x hx
      exact hg' x (fun hc => hx (List.mem_cons_of_mem a hc))
    rw [base, step 2, step 1]
    rfl

theorem sumAssign_append (l₁ l₂ : List String) (G : (String → ℕ) → ℚ)
    (g : String → ℕ) :
    sumAssign (l₁ ++ l₂) G g = sumAssign l₁ (fun g' => sumAssign l₂ G g') g := by
  induction l₁ generalizing g with
  | nil => rfl
  | cons a l ih =>
    show sumAssign (l ++ l₂) G g + sumAssign (l ++ l₂) G (updA g a 2) +
        sumAssign (l ++ l₂) G (updA g a 1) = _
    rw [ih, ih, ih]
    rfl

theorem sumAssign_const_mul (l : List String) (c : ℚ)
    (G : (String → ℕ) → ℚ) (g : String → ℕ) :
    sumAssign l (fun g' => c * G g') g = c * sumAssign l G g := by
  induction l generalizing g with
  | nil => rfl
  | cons a l ih =>
    show sumAssign l _ g + sumAssign l _ (updA g a 2) + sumAssign l _ (updA g a 1) = _
    rw [ih, ih, ih]
    show _ = c * (sumAssign l G g + sumAssign l G (updA g a 2) + sumAssign l G (updA g a 1))
    ring

theorem list_sum_map_mul_left {α : Type} (l : List α) (c : ℚ) (f : α → ℚ) :
    (l.map (fun x => c * f x)).sum = c * (l.map f).sum := by
  induction l with
  | nil => simp
  | cons x xs ih =>
    simp only [List.map_cons, List.sum_cons, ih]
    ring

theorem list_sum_comm {α β : Type} (l : List α) (m : List β) (f : α → β → ℚ) :
    (l.map (fun a => (m.map (fun b => f a b)).sum)).sum =
      (m.map (fun b => (l.map (fun a => f a b)).sum)).sum := by
  induction l with
  | nil =>
    simp only [List.map_nil, List.sum_nil]
    rw [List.sum_eq_zero]
    intro x hx
    obtain ⟨b, _, rfl⟩ := List.mem_map.mp hx
    simp
  | cons a l ih =>
    simp only [List.map_cons, List.sum_cons, ih, list_sum_map_add]

theorem sum_map_flatMap {α β : Type} (l : List α) (F : α → List β) (f : β → ℚ) :
    ((l.flatMap F).map f).sum = (l.map (fun a => ((F a).map f).sum)).sum := by
  induction l with
  | nil => rfl
  | cons a l ih =>
    rw [List.flatMap_cons, List.map_append, List.sum_append, ih,
      List.map_cons, List.sum_cons]

theorem asgOf_cons_og (S tg : List String) (a : String) (g : String → ℕ)
    (hatg : a ∉ tg) (haS : a ∉ S) :
    asgOf (a :: S) tg g = asgOf S tg (updA g a 1) := by
  funext x
  unfold asgOf updA
  by_cases hxa : x = a
  · subst hxa
    simp [hatg, haS]
  · simp [List.mem_cons, hxa]

theorem asgOf_cons_tg (S T : List String) (a : String) (g : String → ℕ)
    (haT : a ∉ T) (haS : a ∉ S) :
    asgOf S (a :: T) g = asgOf S T (updA g a 2) := by
  funext x
  unfold asgOf updA
  by_cases hxa : x = a
  · subst hxa
    simp [haT, haS]
  · simp [List.mem_cons, hxa]

theorem powerset_cons (a : String) (l : List String) :
    powerset (a :: l) = powerset l ++ (powerset l).map (List.cons a) := by
  unfold powerset
  exact List.sublists'_cons a l

theorem filter_notmem_cons_pos (a : String) (l S : List String) (haS : a ∉ S) :
    (a :: l).filter (fun nm => nm ∉ S) = a :: l.filter (fun nm => nm ∉ S) :=
  List.filter_cons_of_pos (by simpa using haS)

theorem filter_notmem_cons_neg (a : String) (l S : List String) (hal : a ∉ l) :
    (a :: l).filter (fun nm => nm ∉ a :: S) = l.filter (fun nm => nm ∉ S) := by
  rw [List.filter_cons_of_neg (by simp)]
  apply List.filter_congr
  intro x hx
  have hxa : x ≠ a := fun hc => hal (hc ▸ hx)
  simp [List.mem_cons, hxa]

theorem pairSum_eq_sumAssign (l : List String) (hl : l.Nodup)
    (G : (String → ℕ) → ℚ) (g : String → ℕ) :
    pairSum l G g = sumAssign l G g := by
  induction l generalizing g with
  | nil =>
    show ((powerset []).map _).sum = G g
    have h1 : powerset ([] : List String) = [[]] := rfl
    rw [h1]
    simp only [List.map_cons, List.map_nil, List.sum_cons, List.sum_nil]
    have h2 : (([] : List String).filter (fun nm => nm ∉ ([] : List String))) = [] := rfl
    rw [h2, h1]
    simp only [List.map_cons, List.map_nil, List.sum_cons, List.sum_nil]
    have h3 : asgOf [] [] g = g := by
      funext x
      unfold asgOf
      simp
    rw [h3]
    ring
  | cons a l ih =>
    obtain ⟨ha, hl'⟩ := List.nodup_cons.mp hl
    show ((powerset (a :: l)).map _).sum = _
    rw [powerset_cons, List.map_append, List.sum_append, List.map_map]
    -- Part 2: one_gene = a :: S, giving the person called a one copy.
    have part2 : ((powerset l).map ((fun og =>
        ((powerset ((a :: l).filter (fun nm => nm ∉ og))).map (fun tg =>
          G (asgOf og tg g))).sum) ∘ List.cons a)).sum =
        sumAssign l G (updA g a 1) := by
      rw [← ih hl' (updA g a 1)]
      apply congrArg List.sum
      apply List.map_congr_left
      intro S hS
      have hSl : List.Sublist S l := mem_powerset.mp hS
      have haS : a ∉ S := fun hc => ha (hSl.subset hc)
      simp only [Function.comp_apply]
      rw [filter_notmem_cons_neg a l S ha]
      apply congrArg List.sum
      apply List.map_congr_left
      intro T hT
      have hTl : List.Sublist T (l.filter (fun nm => nm ∉ S)) := mem_powerset.mp hT
      have haT : a ∉ T := fun hc =>
        ha ((hTl.trans (List.filter_sublist l)).subset hc)
      rw [asgOf_cons_og S T a g haT haS]
    -- Part 1: one_gene = S without a; two_genes either contains a or not.
    have part1 : ((powerset l).map (fun og =>
        ((powerset ((a :: l).filter (fun nm => nm ∉ og))).map (fun tg =>
          G (asgOf og tg g))).sum)).sum =
        sumAssign l G g + sumAssign l G (updA g a 2) := by
      rw [← ih hl' g, ← ih hl' (updA g a 2)]
      unfold pairSum
      rw [list_sum_map_add]
      apply congrArg List.sum
      apply List.map_congr_left
      intro S hS
      have hSl : List.Sublist S l := mem_powerset.mp hS
      have haS : a ∉ S := fun hc => ha (hSl.subset hc)
      rw [filter_notmem_cons_pos a l S haS, powerset_cons,
        List.map_append, List.sum_append, List.map_map]
      congr 1
      apply congrArg List.sum
      apply List.map_congr_left
      intro T hT
      have hTl : List.Sublist T (l.filter (fun nm => nm ∉ S)) := mem_powerset.mp hT
      have haT : a ∉ T := fun hc =>
        ha ((hTl.trans (List.filter_sublist l)).subset hc)
      simp only [Function.comp_apply]
      rw [asgOf_cons_tg S T a g haT haS]
    rw [part1, part2]
    rfl

theorem parentVal_updA (g : String → ℕ) (a : String) (v : ℕ)
    (mopt : Option String) (h : mopt ≠ some a) :
    parentVal (updA g a v) mopt = parentVal g mopt := by
  rcases mopt with _ | m
  · rfl
  · have hma : m ≠ a := fun hc => h (by rw [hc])
    unfold parentVal updA
    dsimp only
    rw [if_neg hma]

theorem geneFactorA_updA_other (p : Person) (g : String → ℕ) (a : String)
    (v : ℕ) (hname : p.name ≠ a) (hm : p.mother ≠ some a)
    (hf : p.father ≠ some a) :
    geneFactorA p (updA g a v) = geneFactorA p g := by
  unfold geneFactorA
  rw [show updA g a v p.name = g p.name from by unfold updA; rw [if_neg hname]]
  rw [parentVal_updA g a v p.mother hm, parentVal_updA g a v p.father hf]

theorem geneFactorA_sum (z : Person) (g : String → ℕ)
    (hmz : z.mother ≠ some z.name) (hfz : z.father ≠ some z.name)
    (hz0 : g z.name = 0) :
    geneFactorA z g + geneFactorA z (updA g z.name 2) +
      geneFactorA z (updA g z.name 1) = 1 := by
  have h2 : updA g z.name 2 z.name = 2 := by unfold updA; rw [if_pos rfl]
  have h1 : updA g z.name 1 z.name = 1 := by unfold updA; rw [if_pos rfl]
  have hpm2 := parentVal_updA g z.name 2 z.mother hmz
  have hpf2 := parentVal_updA g z.name 2 z.father hfz
  have hpm1 := parentVal_updA g z.name 1 z.mother hmz
  have hpf1 := parentVal_updA g z.name 1 z.father hfz
  unfold geneFactorA
  rw [h2, h1, hz0, hpm2, hpf2, hpm1, hpf1]
  by_cases hfo : z.mother = none ∧ z.father = none
  · rw [if_pos hfo, if_pos hfo, if_pos hfo]
    norm_num [PROBS_gene]
  · rw [if_neg hfo, if_neg hfo, if_neg hfo]
    norm_num
    ring

/-- Summing the gene-factor product over all assignments of a topologically
listed pedigree gives total mass 1: each person, taken from the last
upward, contributes `prior(0)+prior(1)+prior(2) = 1` or
`P(0|pm,pf)+P(1|pm,pf)+P(2|pm,pf) = 1`. -/
theorem sumAssign_prod_one : ∀ (ps : List Person),
    (names_of ps).Nodup → ps.Pairwise NoLaterParent →
    (∀ p ∈ ps, p.mother ≠ some p.name ∧ p.father ≠ some p.name) →
    ∀ g0 : String → ℕ, (∀ nm ∈ names_of ps, g0 nm = 0) →
    sumAssign (names_of ps) (fun g => (ps.map (fun p => geneFactorA p g)).prod) g0 = 1 := by
  intro ps
  induction ps using List.reverseRecOn with
  | nil =>
    intro _ _ _ g0 _
    rfl
  | append_singleton l z ih =>
    intro hn htopo hself g0 hg0
    have hnames : names_of (l ++ [z]) = names_of l ++ [z.name] := by
      unfold names_of
      rw [List.map_append]
      rfl
    rw [hnames] at hn hg0 ⊢
    obtain ⟨hnl, _, hdisj⟩ := List.nodup_append.mp hn
    obtain ⟨htl, _, hlz⟩ := List.pairwise_append.mp htopo
    have hzl : z.name ∉ names_of l := fun hc =>
      hdisj hc (List.mem_singleton_self z.name)
    have hzself := hself z (List.mem_append_right l (List.mem_singleton_self z))
    rw [sumAssign_append]
    have hext : sumAssign (names_of l)
        (fun g' => sumAssign [z.name]
          (fun g => ((l ++ [z]).map (fun p => geneFactorA p g)).prod) g') g0 =
        sumAssign (names_of l)
          (fun g' => (l.map (fun p => geneFactorA p g')).prod) g0 := by
      apply sumAssign_ext
      intro g' hg'
      have hg'z : g' z.name = 0 := by
        rw [hg' z.name hzl]
        exact hg0 z.name (List.mem_append_right _ (List.mem_singleton_self _))
      show ((l ++ [z]).map _).prod + ((l ++ [z]).map _).prod +
          ((l ++ [z]).map _).prod = _
      have hsplit : ∀ g : String → ℕ,
          ((l ++ [z]).map (fun p => geneFactorA p g)).prod =
          (l.map (fun p => geneFactorA p g)).prod * geneFactorA z g := by
        intro g
        rw [List.map_append, List.prod_append, List.map_singleton,
          List.prod_singleton]
      rw [hsplit, hsplit, hsplit]
      have hprodconst : ∀ v : ℕ,
          (l.map (fun p => geneFactorA p (updA g' z.name v))).prod =
          (l.map (fun p => geneFactorA p g')).prod := by
        intro v
        apply congrArg List.prod
        apply List.map_congr_left
        intro p hp
        have hpz := hlz p hp z (List.mem_singleton_self z)
        have hpname : p.name ≠ z.name := fun hc =>
          hdisj (hc ▸ List.mem_map_of_mem Person.name hp)
            (List.mem_singleton_self z.name)
        exact geneFactorA_updA_other p g' z.name v hpname hpz.1 hpz.2
      rw [hprodconst 2, hprodconst 1]
      have := geneFactorA_sum z g' hzself.1 hzself.2 hg'z
      calc (l.map (fun p => geneFactorA p g')).prod * geneFactorA z g' +
              (l.map (fun p => geneFactorA p g')).prod * geneFactorA z (updA g' z.name 2) +
              (l.map (fun p => geneFactorA p g')).prod * geneFactorA z (updA g' z.name 1)
          = (l.map (fun p => geneFactorA p g')).prod *
              (geneFactorA z g' + geneFactorA z (updA g' z.name 2) +
                geneFactorA z (updA g' z.name 1)) := by ring
        _ = (l.map (fun p => geneFactorA p g')).prod * 1 := by rw [this]
        _ = (l.map (fun p => geneFactorA p g')).prod := mul_one _
    rw [hext]
    exact ih hnl htl
      (fun p hp => hself p (List.mem_append_left [z] hp)) g0
      (fun nm hnm => hg0 nm (List.mem_append_left _ hnm))

/-- Summing the gene-factor product, restricted to assignments that give a
founder `x` exactly `k` copies, over all assignments of a topologically
listed pedigree yields exactly the unconditional prior `P(gene = k)`. -/
theorem sumAssign_founder_marginal : ∀ (ps : List Person),
    (names_of ps).Nodup → ps.Pairwise NoLaterParent →
    (∀ p ∈ ps, p.mother ≠ some p.name ∧ p.father ≠ some p.name) →
    ∀ x : Person, x ∈ ps → x.mother = none → x.father = none →
    ∀ k : ℕ, ∀ g0 : String → ℕ, (∀ nm ∈ names_of ps, g0 nm = 0) →
    sumAssign (names_of ps)
      (fun g => if k = g x.name then
        (ps.map (fun p => geneFactorA p g)).prod else 0) g0 = PROBS_gene k := by
  intro ps
  induction ps using List.reverseRecOn with
  | nil =>
    intro _ _ _ x hx
    exact absurd hx (List.not_mem_nil x)
  | append_singleton l z ih =>
    intro hn htopo hself x hx hxm hxf k g0 hg0
    have hnames : names_of (l ++ [z]) = names_of l ++ [z.name] := by
      unfold names_of
      rw [List.map_append]
      rfl
    rw [hnames] at hn hg0 ⊢
    obtain ⟨hnl, _, hdisj⟩ := List.nodup_append.mp hn
    obtain ⟨htl, _, hlz⟩ := List.pairwise_append.mp htopo
    have hzl : z.name ∉ names_of l := fun hc =>
      hdisj hc (List.mem_singleton_self z.name)
    have hzself := hself z (List.mem_append_right l (List.mem_singleton_self z))
    rw [sumAssign_append]
    have hsplit : ∀ g : String → ℕ,
        ((l ++ [z]).map (fun p => geneFactorA p g)).prod =
        (l.map (fun p => geneFactorA p g)).prod * geneFactorA z g := by
      intro g
      rw [List.map_append, List.prod_append, List.map_singleton,
        List.prod_singleton]
    have hprodconst : ∀ (g' : String → ℕ) (v : ℕ),
        (l.map (fun p => geneFactorA p (updA g' z.name v))).prod =
        (l.map (fun p => geneFactorA p g')).prod := by
      intro g' v
      apply congrArg List.prod
      apply List.map_congr_left
      intro p hp
      have hpz := hlz p hp z (List.mem_singleton_self z)
      have hpname : p.name ≠ z.name := fun hc =>
        hdisj (hc ▸ List.mem_map_of_mem Person.name hp)
          (List.mem_singleton_self z.name)
      exact geneFactorA_updA_other p g' z.name v hpname hpz.1 hpz.2
    have h2 : ∀ g' : String → ℕ, updA g' z.name 2 z.name = 2 := by
      intro g'; unfold updA; rw [if_pos rfl]
    have h1 : ∀ g' : String → ℕ, updA g' z.name 1 z.name = 1 := by
      intro g'; unfold updA; rw [if_pos rfl]
    rcases List.mem_append.mp hx with hxl | hxz
    · -- the founder x is among the earlier persons; sum out z
      have hxname : x.name ≠ z.name := fun hc =>
        hdisj (hc ▸ List.mem_map_of_mem Person.name hxl)
          (List.mem_singleton_self z.name)
      have hext : sumAssign (names_of l)
          (fun g' => sumAssign [z.name]
            (fun g => if k = g x.name then
              ((l ++ [z]).map (fun p => geneFactorA p g)).prod else 0) g') g0 =
          sumAssign (names_of l)
            (fun g' => if k = g' x.name then
              (l.map (fun p => geneFactorA p g')).prod else 0) g0 := by
        apply sumAssign_ext
        intro g' hg'
        have hg'z : g' z.name = 0 := by
          rw [hg' z.name hzl]
          exact hg0 z.name (List.mem_append_right _ (List.mem_singleton_self _))
        have hupdx : ∀ v : ℕ, updA g' z.name v x.name = g' x.name := by
          intro v; unfold updA; rw [if_neg hxname]
        show (if k = g' x.name then _ else 0) +
            (if k = updA g' z.name 2 x.name then _ else 0) +
            (if k = updA g' z.name 1 x.name then _ else 0) = _
        rw [hupdx 2, hupdx 1]
        by_cases hk : k = g' x.name
        · rw [if_pos hk, if_pos hk, if_pos hk, if_pos hk,
            hsplit, hsplit, hsplit, hprodconst g' 2, hprodconst g' 1]
          have hgz := geneFactorA_sum z g' hzself.1 hzself.2 hg'z
          calc (l.map (fun p => geneFactorA p g')).prod * geneFactorA z g' +
                  (l.map (fun p => geneFactorA p g')).prod *
                    geneFactorA z (updA g' z.name 2) +
                  (l.map (fun p => geneFactorA p g')).prod *
                    geneFactorA z (updA g' z.name 1)
              = (l.map (fun p => geneFactorA p g')).prod *
                  (geneFactorA z g' + geneFactorA z (updA g' z.name 2) +
                    geneFactorA z (updA g' z.name 1)) := by ring
            _ = _ := by rw [hgz, mul_one]
        · rw [if_neg hk, if_neg hk, if_neg hk, if_neg hk]
          norm_num
      rw [hext]
      exact ih hnl htl
        (fun p hp => hself p (List.mem_append_left [z] hp)) x hxl hxm hxf k g0
        (fun nm hnm => hg0 nm (List.mem_append_left _ hnm))
    · -- the founder x is the last person z itself
      have hxz' : x = z := List.mem_singleton.mp hxz
      subst hxz'
      have hfounder : x.mother = none ∧ x.father = none := ⟨hxm, hxf⟩
      have hgfx : ∀ g : String → ℕ, geneFactorA x g = PROBS_gene (g x.name) := by
        intro g
        unfold geneFactorA
        rw [if_pos hfounder]
      have hext : sumAssign (names_of l)
          (fun g' => sumAssign [x.name]
            (fun g => if k = g x.name then
              ((l ++ [x]).map (fun p => geneFactorA p g)).prod else 0) g') g0 =
          sumAssign (names_of l)
            (fun g' => PROBS_gene k * (l.map (fun p => geneFactorA p g')).prod) g0 := by
        apply sumAssign_ext
        intro g' hg'
        have hg'z : g' x.name = 0 := by
          rw [hg' x.name hzl]
          exact hg0 x.name (List.mem_append_right _ (List.mem_singleton_self _))
        show (if k = g' x.name then _ else 0) +
            (if k = updA g' x.name 2 x.name then _ else 0) +
            (if k = updA g' x.name 1 x.name then _ else 0) = _
        rw [h2, h1, hg'z, hsplit, hsplit, hsplit, hprodconst g' 2,
          hprodconst g' 1, hgfx, hgfx, hgfx, h2, h1, hg'z]
        rcases k with _ | _ | _ | k
        · rw [if_pos rfl, if_neg (by norm_num), if_neg (by norm_num)]
          show _ * PROBS_gene 0 + 0 + 0 = PROBS_gene 0 * _
          ring
        · rw [if_neg (by norm_num), if_neg (by norm_num), if_pos rfl]
          show 0 + 0 + _ * PROBS_gene 1 = PROBS_gene 1 * _
          ring
        · rw [if_neg (by norm_num), if_pos rfl, if_neg (by norm_num)]
          show 0 + _ * PROBS_gene 2 + 0 = PROBS_gene 2 * _
          ring
        · rw [if_neg (by omega), if_neg (by omega), if_neg (by omega)]
          show 0 + 0 + 0 = PROBS_gene (k + 3) * _
          have : PROBS_gene (k + 3) = 0 := rfl
          rw [this]
          ring
      rw [hext, sumAssign_const_mul]
      rw [sumAssign_prod_one l hnl htl
        (fun p hp => hself p (List.mem_append_left [x] hp)) g0
        (fun nm hnm => hg0 nm (List.mem_append_left _ hnm))]
      exact mul_one _

theorem sum_powerset_prod (people : List Person)
    (hn : (names_of people).Nodup) (F : Person → Bool → ℚ) :
    ((powerset (names_of people)).map (fun S =>
      (people.map (fun p => F p (decide (p.name ∈ S)))).prod)).sum =
    (people.map (fun p => F p true + F p false)).prod := by
  induction people with
  | nil =>
    show ((powerset []).map _).sum = 1
    simp [powerset]
  | cons q rest ih =>
    have hq : q.name ∉ names_of rest := (List.nodup_cons.mp hn).1
    have hrest : (names_of rest).Nodup := (List.nodup_cons.mp hn).2
    show ((powerset (q.name :: names_of rest)).map _).sum = _
    rw [powerset_cons, List.map_append, List.sum_append, List.map_map]
    have part1 : ((powerset (names_of rest)).map (fun S =>
        ((q :: rest).map (fun p => F p (decide (p.name ∈ S)))).prod)).sum =
        F q false * ((powerset (names_of rest)).map (fun S =>
          (rest.map (fun p => F p (decide (p.name ∈ S)))).prod)).sum := by
      rw [← list_sum_map_mul_left]
      apply congrArg List.sum
      apply List.map_congr_left
      intro S hS
      have hqS : q.name ∉ S := fun hc =>
        hq ((mem_powerset.mp hS).subset hc)
      rw [List.map_cons, List.prod_cons]
      congr 1
      rw [show decide (q.name ∈ S) = false from by simpa using hqS]
    have part2 : ((powerset (names_of rest)).map ((fun S =>
        ((q :: rest).map (fun p => F p (decide (p.name ∈ S)))).prod) ∘
          List.cons q.name)).sum =
        F q true * ((powerset (names_of rest)).map (fun S =>
          (rest.map (fun p => F p (decide (p.name ∈ S)))).prod)).sum := by
      rw [← list_sum_map_mul_left]
      apply congrArg List.sum
      apply List.map_congr_left
      intro S _
      simp only [Function.comp_apply]
      rw [List.map_cons, List.prod_cons]
      congr 1
      · rw [show decide (q.name ∈ q.name :: S) = true from by simp]
      · apply congrArg List.prod
        apply List.map_congr_left
        intro p hp
        have hpq : p.name ≠ q.name := fun hc =>
          hq (hc ▸ List.mem_map_of_mem Person.name hp)
        congr 1
        simp [List.mem_cons, hpq]
    rw [part1, part2, List.map_cons, List.prod_cons, ← ih hrest]
    ring

theorem PROBS_trait_row (one_gene two_genes : List String) (nm : String) :
    PROBS_trait (num_genes one_gene two_genes nm) true +
      PROBS_trait (num_genes one_gene two_genes nm) false = 1 := by
  rcases num_genes_cases one_gene two_genes nm with h | h | h <;>
    rw [h] <;> norm_num [PROBS_trait]

theorem fails_evidence_of_no_evidence (people : List Person)
    (hEv : ∀ p ∈ people, p.trait = none) (ht : List String) :
    fails_evidence people ht = false := by
  unfold fails_evidence
  rw [List.any_eq_false]
  intro p hp
  rw [hEv p hp]
  simp

theorem combos_no_evidence (people : List Person)
    (hEv : ∀ p ∈ people, p.trait = none) :
    combos people = (powerset (names_of people)).flatMap fun have_trait =>
      (powerset (names_of people)).flatMap fun one_gene =>
        (powerset ((names_of people).filter (fun nm => nm ∉ one_gene))).map
          fun two_genes => (have_trait, one_gene, two_genes) := by
  unfold combos
  apply List.flatMap_congr
  intro ht _
  rw [if_neg (by rw [fails_evidence_of_no_evidence people hEv]; simp)]

theorem joint_probability_split (people : List Person)
    (one_gene two_genes have_trait : List String) :
    joint_probability people one_gene two_genes have_trait =
      (people.map (fun p => geneFactorA p
        (asgOf one_gene two_genes (fun _ => 0)))).prod *
      (people.map (fun p => PROBS_trait (num_genes one_gene two_genes p.name)
        (decide (p.name ∈ have_trait)))).prod := by
  rw [joint_probability_eq_prod_source, ← List.prod_map_mul]
  apply congrArg List.prod
  apply List.map_congr_left
  intro p _
  rw [gene_factor_eq_A]

/-- For a topologically listed pedigree with no trait evidence, a founder's
unnormalized gene bucket `k` is exactly the prior `P(gene=k)`. -/
theorem founder_gene_bucket (people : List Person)
    (hn : (names_of people).Nodup) (htopo : people.Pairwise NoLaterParent)
    (hself : ∀ p ∈ people, p.mother ≠ some p.name ∧ p.father ≠ some p.name)
    (hEv : ∀ p ∈ people, p.trait = none)
    (x : Person) (hx : x ∈ people) (hxm : x.mother = none)
    (hxf : x.father = none) (k : ℕ) :
    ((run_enumeration people) x.name).gene k = PROBS_gene k := by
  have h0 : ((run_enumeration people) x.name).gene k =
      ((combos people).map (fun c =>
        if k = num_genes c.2.1 c.2.2 x.name then
          joint_probability people c.2.1 c.2.2 c.1 else 0)).sum := by
    unfold run_enumeration
    rw [foldl_update_gene]
    show (0 : ℚ) + _ = _
    rw [zero_add]
  rw [h0, combos_no_evidence people hEv, sum_map_flatMap]
  have h1 : ∀ ht : List String,
      (((powerset (names_of people)).flatMap fun one_gene =>
        (powerset ((names_of people).filter (fun nm => nm ∉ one_gene))).map
          fun two_genes => (ht, one_gene, two_genes)).map (fun c =>
        if k = num_genes c.2.1 c.2.2 x.name then
          joint_probability people c.2.1 c.2.2 c.1 else 0)).sum =
      ((powerset (names_of people)).map (fun og =>
        ((powerset ((names_of people).filter (fun nm => nm ∉ og))).map (fun tg =>
          if k = num_genes og tg x.name then
            joint_probability people og tg ht else 0)).sum)).sum := by
    intro ht
    rw [sum_map_flatMap]
    apply congrArg List.sum
    apply List.map_congr_left
    intro og _
    rw [List.map_map]
    rfl
  have h2 : ((powerset (names_of people)).map (fun ht =>
      (((powerset (names_of people)).flatMap fun one_gene =>
        (powerset ((names_of people).filter (fun nm => nm ∉ one_gene))).map
          fun two_genes => (ht, one_gene, two_genes)).map (fun c =>
        if k = num_genes c.2.1 c.2.2 x.name then
          joint_probability people c.2.1 c.2.2 c.1 else 0)).sum)).sum =
      ((powerset (names_of people)).map (fun ht =>
        ((powerset (names_of people)).map (fun og =>
          ((powerset ((names_of people).filter (fun nm => nm ∉ og))).map (fun tg =>
            if k = num_genes og tg x.name then
              joint_probability people og tg ht else 0)).sum)).sum)).sum := by
    apply congrArg List.sum
    apply List.map_congr_left
    intro ht _
    exact h1 ht
  rw [h2, list_sum_comm]
  have h3 : ∀ og : List String,
      ((powerset (names_of people)).map (fun ht =>
        ((powerset ((names_of people).filter (fun nm => nm ∉ og))).map (fun tg =>
          if k = num_genes og tg x.name then
            joint_probability people og tg ht else 0)).sum)).sum =
      ((powerset ((names_of people).filter (fun nm => nm ∉ og))).map (fun tg =>
        if k = num_genes og tg x.name then
          (people.map (fun p =>
            geneFactorA p (asgOf og tg (fun _ => 0)))).prod else 0)).sum := by
    intro og
    rw [list_sum_comm]
    apply congrArg List.sum
    apply List.map_congr_left
    intro tg _
    by_cases hk : k = num_genes og tg x.name
    · have hterm : ∀ ht : List String,
          (if k = num_genes og tg x.name then
            joint_probability people og tg ht else 0) =
          (people.map (fun p =>
            geneFactorA p (asgOf og tg (fun _ => 0)))).prod *
          (people.map (fun p => PROBS_trait (num_genes og tg p.name)
            (decide (p.name ∈ ht)))).prod := by
        intro ht
        rw [if_pos hk, joint_probability_split]
      rw [if_pos hk]
      calc ((powerset (names_of people)).map (fun ht =>
            if k = num_genes og tg x.name then
              joint_probability people og tg ht else 0)).sum
          = ((powerset (names_of people)).map (fun ht =>
              (people.map (fun p =>
                geneFactorA p (asgOf og tg (fun _ => 0)))).prod *
              (people.map (fun p => PROBS_trait (num_genes og tg p.name)
                (decide (p.name ∈ ht)))).prod)).sum := by
            apply congrArg List.sum
            apply List.map_congr_left
            intro ht _
            exact hterm ht
        _ = (people.map (fun p =>
              geneFactorA p (asgOf og tg (fun _ => 0)))).prod *
            ((powerset (names_of people)).map (fun ht =>
              (people.map (fun p => PROBS_trait (num_genes og tg p.name)
                (decide (p.name ∈ ht)))).prod)).sum := by
            rw [list_sum_map_mul_left]
        _ = (people.map (fun p =>
              geneFactorA p (asgOf og tg (fun _ => 0)))).prod *
            (people.map (fun p => PROBS_trait (num_genes og tg p.name) true +
              PROBS_trait (num_genes og tg p.name) false)).prod := by
            rw [sum_powerset_prod people hn
              (fun p b => PROBS_trait (num_genes og tg p.name) b)]
        _ = (people.map (fun p =>
              geneFactorA p (asgOf og tg (fun _ => 0)))).prod * 1 := by
            congr 1
            apply List.prod_eq_one
            intro y hy
            obtain ⟨p, _, rfl⟩ := List.mem_map.mp hy
            exact PROBS_trait_row og tg p.name
        _ = (people.map (fun p =>
              geneFactorA p (asgOf og tg (fun _ => 0)))).prod := mul_one _
    · rw [if_neg hk]
      rw [List.sum_eq_zero]
      intro y hy
      obtain ⟨ht, _, rfl⟩ := List.mem_map.mp hy
      rw [if_neg hk]
  have h4 : ((powerset (names_of people)).map (fun og =>
      ((powerset (names_of people)).map (fun ht =>
        ((powerset ((names_of people).filter (fun nm => nm ∉ og))).map (fun tg =>
          if k = num_genes og tg x.name then
            joint_probability people og tg ht else 0)).sum)).sum)).sum =
      pairSum (names_of people)
        (fun g => if k = g x.name then
          (people.map (fun p => geneFactorA p g)).prod else 0)
        (fun _ => 0) := by
    unfold pairSum
    apply congrArg List.sum
    apply List.map_congr_left
    intro og _
    exact h3 og
  rw [h4, pairSum_eq_sumAssign (names_of people) hn]
  exact sumAssign_founder_marginal people hn htopo hself x hx hxm hxf k
    (fun _ => 0) (fun _ _ => rfl)

/-- With no trait evidence in a well-formed (topologically listed) pedigree,
the whole pipeline gives every founder the unconditional prior as gene
marginal. -/
theorem founder_marginal_solveGene (people : List Person)
    (hn : (names_of people).Nodup) (htopo : people.Pairwise NoLaterParent)
    (hself : ∀ p ∈ people, p.mother ≠ some p.name ∧ p.father ≠ some p.name)
    (hEv : ∀ p ∈ people, p.trait = none)
    (x : Person) (hx : x ∈ people) (hxm : x.mother = none)
    (hxf : x.father = none) (k : ℕ) :
    solveGene people x.name k = some (PROBS_gene k) := by
  have hb : ∀ j : ℕ, ((run_enumeration people) x.name).gene j = PROBS_gene j :=
    fun j => founder_gene_bucket people hn htopo hself hEv x hx hxm hxf j
  have hmass1 : mass people (combos people) = 1 := by
    have h := run_gene_sum people x.name
    rw [hb 0, hb 1, hb 2] at h
    rw [← h]
    norm_num [PROBS_gene]
  have hcond : ∀ p ∈ people,
      ((run_enumeration people) p.name).gene 2 +
        ((run_enumeration people) p.name).gene 1 +
        ((run_enumeration people) p.name).gene 0 ≠ 0 ∧
      ((run_enumeration people) p.name).trait true +
        ((run_enumeration people) p.name).trait false ≠ 0 := by
    intro p _
    constructor
    · have h1 := run_gene_sum people p.name
      rw [hmass1] at h1
      intro h0
      rw [show ((run_enumeration people) p.name).gene 0 +
          ((run_enumeration people) p.name).gene 1 +
          ((run_enumeration people) p.name).gene 2 =
          ((run_enumeration people) p.name).gene 2 +
          ((run_enumeration people) p.name).gene 1 +
          ((run_enumeration people) p.name).gene 0 from by ring, h0] at h1
      norm_num at h1
    · rw [run_trait_sum, hmass1]
      norm_num
  obtain ⟨f, hfok, _, hmem⟩ := normalize_ok people (run_enumeration people) hn hcond
  have hfx := hmem x hx
  unfold solveGene solve
  rw [hfok]
  dsimp only
  rw [hfx]
  show some (((run_enumeration people) x.name).gene k /
    (((run_enumeration people) x.name).gene 2 +
      ((run_enumeration people) x.name).gene 1 +
      ((run_enumeration people) x.name).gene 0)) = _
  rw [hb k, hb 2, hb 1, hb 0]
  norm_num [PROBS_gene]

/-- Refutation of C5 as stated: the single-founder pipeline's trait
distribution is `{true: 0.0329, false: 0.9671}` — the value of the claim's
own weighted sum `0.96*0.01 + 0.03*0.56 + 0.01*0.65` — and that is nowhere
near the claim's stated approximation `0.0188` (it differs by more than
`0.01`). -/
theorem claim_C5_counterexample :
    solveTrait [{ name := "Harry", mother := none, father := none, trait := none }]
      "Harry" true = some (329/10000) ∧
    ¬|(329 : ℚ)/10000 - 188/10000| ≤ 1/100 := by
  constructor
  · norm_num [solveTrait, solve, Heredity.normalize, run_enumeration, combos,
      powerset, names_of, fails_evidence, update, initProbs, normalize_dist,
      joint_probability, gene_factor, num_genes, prob_passing, memOpt,
      PROBS_gene, PROBS_trait, PROBS_mutation, List.sublists'_cons,
      List.sublists'_nil, norm_pure]
  · rw [abs_of_pos (by norm_num)]
    norm_num

/-- C5 (amended): the single-founder pipeline outputs the gene distribution
exactly `{0: 0.96, 1: 0.03, 2: 0.01}` and the trait distribution equal to
the weighted sum `0.96*{0.01,0.99} + 0.03*{0.56,0.44} + 0.01*{0.65,0.35}`,
i.e. `{true: 0.0329, false: 0.9671}` (the claim's "≈ 0.0188/0.9812" is an
arithmetic slip); and in general, in a well-formed pedigree (distinct names,
no self-parents, parents listed before their children — the spec's acyclic
founder-invariant pedigree in topological order) with no observed trait
anywhere, every founder's gene marginal is exactly the unconditional
prior. -/
theorem claim_C5_single_founder_pipeline (people : List Person)
    (hn : (names_of people).Nodup) (htopo : people.Pairwise NoLaterParent)
    (hself : ∀ p ∈ people, p.mother ≠ some p.name ∧ p.father ≠ some p.name)
    (hEv : ∀ p ∈ people, p.trait = none)
    (x : Person) (hx : x ∈ people) (hxm : x.mother = none)
    (hxf : x.father = none) :
    (solveGene [{ name := "Harry", mother := none, father := none, trait := none }]
        "Harry" 0 = some (96/100) ∧
      solveGene [{ name := "Harry", mother := none, father := none, trait := none }]
        "Harry" 1 = some (3/100) ∧
      solveGene [{ name := "Harry", mother := none, father := none, trait := none }]
        "Harry" 2 = some (1/100) ∧
      solveTrait [{ name := "Harry", mother := none, father := none, trait := none }]
        "Harry" true =
        some (96/100 * (1/100) + 3/100 * (56/100) + 1/100 * (65/100)) ∧
      solveTrait [{ name := "Harry", mother := none, father := none, trait := none }]
        "Harry" false =
        some (96/100 * (99/100) + 3/100 * (44/100) + 1/100 * (35/100))) ∧
    (∀ k, solveGene people x.name k = some (PROBS_gene k)) := by
  constructor
  · refine ⟨?_, ?_, ?_, ?_, ?_⟩ <;>
      norm_num [solveGene, solveTrait, solve, Heredity.normalize,
        run_enumeration, combos, powerset, names_of, fails_evidence, update,
        initProbs, normalize_dist, joint_probability, gene_factor, num_genes,
        prob_passing, memOpt, PROBS_gene, PROBS_trait, PROBS_mutation,
        List.sublists'_cons, List.sublists'_nil, norm_pure]
  · exact fun k => founder_marginal_solveGene people hn htopo hself hEv
      x hx hxm hxf k

theorem claim_C5_witness :
    (names_of
      [{ name := "F1", mother := none, father := none, trait := none },
       { name := "F2", mother := none, father := none, trait := none },
       { name := "Kid", mother := some "F1", father := some "F2", trait := none }]).Nodup ∧
    (([{ name := "F1", mother := none, father := none, trait := none },
      { name := "F2", mother := none, father := none, trait := none },
      { name := "Kid", mother := some "F1", father := some "F2", trait := none }] : List Person).Pairwise
        NoLaterParent) ∧
    (∀ p ∈ ([{ name := "F1", mother := none, father := none, trait := none },
      { name := "F2", mother := none, father := none, trait := none },
      { name := "Kid", mother := some "F1", father := some "F2", trait := none }] : List Person),
      p.mother ≠ some p.name ∧ p.father ≠ some p.name) ∧
    (∀ p ∈ ([{ name := "F1", mother := none, father := none, trait := none },
      { name := "F2", mother := none, father := none, trait := none },
      { name := "Kid", mother := some "F1", father := some "F2", trait := none }] : List Person),
      p.trait = none) ∧
    solveGene
      [{ name := "F1", mother := none, father := none, trait := none },
       { name := "F2", mother := none, father := none, trait := none },
       { name := "Kid", mother := some "F1", father := some "F2", trait := none }]
      "F1" 1 = some (PROBS_gene 1) :=
  ⟨by decide, by decide, by decide, by decide,
    (claim_C5_single_founder_pipeline
      [{ name := "F1", mother := none, father := none, trait := none },
       { name := "F2", mother := none, father := none, trait := none },
       { name := "Kid", mother := some "F1", father := some "F2", trait := none }]
      (by decide) (by decide) (by decide) (by decide)
      { name := "F1", mother := none, father := none, trait := none }
      (by decide) rfl rfl).2 1⟩

end Heredity
